import Mathlib

/-!
Shallow embedding of the `dag` library (a single Python module implementing a
mutable directed acyclic graph) and verification of its specification.

Modelling conventions, chosen to mirror CPython semantics:
* node identifiers are strings;
* a Python `dict` is an insertion-ordered association list
  (`List (Node × _)`), keys unique in every state the library can construct;
* a Python `set` is an insertion-ordered duplicate-free list: `set.add`
  appends when absent, `set.remove` deletes the element, `x in s` is list
  membership.  Hash-table iteration order is not observable to any of the
  properties proved below except through a fixed deterministic refinement
  (we iterate in insertion order).
* a raised exception is an `Except.error` carrying the Python error kind.
-/

set_option maxHeartbeats 1000000

namespace Dag

/-- Python exception kinds raised by the module. -/
inductive PyErr where
  | keyError (msg : String)
  | valueError (msg : String)
  | nameError (msg : String)
  | typeError (msg : String)
deriving DecidableEq, Repr

instance {ε α : Type} [DecidableEq ε] [DecidableEq α] : DecidableEq (Except ε α) := fun x y =>
  match x, y with
  | .ok a, .ok b =>
      if h : a = b then .isTrue (by rw [h]) else .isFalse (by intro hc; cases hc; exact h rfl)
  | .error a, .error b =>
      if h : a = b then .isTrue (by rw [h]) else .isFalse (by intro hc; cases hc; exact h rfl)
  | .ok _, .error _ => .isFalse (by intro hc; cases hc)
  | .error _, .ok _ => .isFalse (by intro hc; cases hc)

abbrev Node := String

/-- `self.graph`: dict mapping a node to the set of its direct successors. -/
abbrev Graph := List (Node × List Node)

/-- First-match association lookup, the semantics of `d[k]` / `k in d`. -/
def lookup {α : Type} : List (Node × α) → Node → Option α
  | [], _ => none
  | p :: t, n => if p.1 = n then some p.2 else lookup t n

/-- The keys of a dict, in insertion order. -/
def keys {α : Type} (g : List (Node × α)) : List Node := g.map Prod.fst

/-- `self.graph[n]` where every caller guarantees `n` is a key (the store
invariant: `add_edge` checks both endpoints and `delete_node` never runs,
see `delete_node` below); defaults to the empty successor set. -/
def succs (g : Graph) (n : Node) : List Node := (lookup g n).getD []

/-- The edge relation of a graph state: `v` is a direct successor of `u`. -/
def Edge (g : Graph) (u v : Node) : Prop := v ∈ succs g u

instance (g : Graph) (u v : Node) : Decidable (Edge g u v) := by
  unfold Edge; infer_instance

/-- Python `set.add`: append if absent. -/
def setAdd (l : List Node) (x : Node) : List Node := if x ∈ l then l else l ++ [x]

/-- Python `set.remove`: delete the element. -/
def setRemove (l : List Node) (x : Node) : List Node := l.filter (fun y => y ≠ x)

/-- In-place mutation of the successor set stored under key `u`. -/
def updateSucc (g : Graph) (u : Node) (f : List Node → List Node) : Graph :=
  g.map (fun p => if p.1 = u then (p.1, f p.2) else p)

/-- `graph[u].remove(v)` on the working copy inside the sorter. -/
def removeEdge (g : Graph) (u v : Node) : Graph := updateSucc g u (fun l => setRemove l v)

/-- Number of edges of a graph, the termination measure of the sorter. -/
def totalEdges (g : Graph) : Nat := (g.map (fun p => p.2.length)).sum

/-- The object state: `self.graph`, `self.levels`, `self.max_level`
(initialised to `{}`, `{}`, `-1` by `__init__`). -/
structure DAG where
  graph : Graph
  levels : List (Node × Nat)
  max_level : Int
deriving DecidableEq, Repr

/-- `DAG.__init__`. -/
def init : DAG := ⟨[], [], -1⟩

/-- `DAG.add_node`. -/
def add_node (name : Node) (s : DAG) : Except PyErr DAG :=
  if name ∈ keys s.graph then .error (.valueError "node already exists")
  else .ok { s with graph := s.graph ++ [(name, [])] }

/-- `DAG.delete_node`, source lines 31-41.  The guard on line 34 reads
`if node_name not in graph:` where `graph` is an unbound name (the attribute
is `self.graph`), so CPython raises `NameError` on every call, before any
part of the store is touched.  The rest of the method body is dead code. -/
def delete_node (_name : Node) (_s : DAG) : Except PyErr DAG :=
  .error (.nameError "name graph is not defined")

/-- `DAG.delete_node_if_exists`: swallows `KeyError` only, so the
`NameError` raised by `delete_node` propagates. -/
def delete_node_if_exists (name : Node) (s : DAG) : Except PyErr DAG :=
  match delete_node name s with
  | .error (.keyError _) => .ok s
  | r => r

/-- `DAG.reset_graph`, source lines 194-196: only `self.graph` is
reassigned; `self.levels` and `self.max_level` are left as they were. -/
def reset_graph (s : DAG) : DAG := { s with graph := [] }

/-- `DAG.ind_nodes`: all keys that appear in no successor set.  The source
returns `list(all_nodes - dependent_nodes)`; we iterate in key order, a
deterministic refinement of the hash-set difference. -/
def ind_nodes (g : Graph) : List Node :=
  (keys g).filter (fun n => !(g.any (fun p => decide (n ∈ p.2))))

/-- `DAG._dependencies`: every node whose successor set holds the target.
The source collects a set and returns `list(result)`; only emptiness of the
result is ever consumed, so iteration order is irrelevant. -/
def dependencies (target : Node) (g : Graph) : List Node :=
  (g.filter (fun p => decide (target ∈ p.2))).map Prod.fst

/-- `DAG.root`, source lines 126-129: keys with an empty (falsy) successor
set. -/
def root (g : Graph) : List Node :=
  (keys g).filter (fun k => (succs g k).isEmpty)

/-- `DAG.all_leaves`, source lines 131-134: the body is identical to
`root`. -/
def all_leaves (g : Graph) : List Node :=
  (keys g).filter (fun k => (succs g k).isEmpty)

/-- `DAG.predecessors`. -/
def predecessors (g : Graph) (node : Node) : List Node :=
  (keys g).filter (fun k => decide (node ∈ succs g k))

/-- `DAG.downstream`: `list(self.graph[node])`, `KeyError` when absent. -/
def downstream (g : Graph) (node : Node) : Except PyErr (List Node) :=
  match lookup g node with
  | none => .error (.keyError "node is not in graph")
  | some l => .ok l

/-- Well-formedness of a graph state.  Every state reachable through the
module API satisfies it: dict keys are unique, successor sets are
duplicate-free Python sets, and `add_edge` insists both endpoints exist
(while `delete_node`, the only remover of nodes, always raises before
acting). -/
def WF (g : Graph) : Prop :=
  (keys g).Nodup ∧ ∀ p ∈ g, p.2.Nodup ∧ ∀ c ∈ p.2, c ∈ keys g

instance (g : Graph) : Decidable (WF g) := by
  unfold WF; infer_instance

theorem length_filter_ne_lt {l : List Node} {v : Node} (h : v ∈ l) :
    (l.filter (fun y => y ≠ v)).length < l.length := by
  induction l with
  | nil => cases h
  | cons a t ih =>
      rcases List.mem_cons.mp h with rfl | hv
      · simp only [List.filter_cons, decide_not, decide_eq_true_eq]
        rw [if_neg (by simp)]
        exact Nat.lt_succ_of_le (List.length_filter_le _ _)
      · by_cases hav : a = v
        · subst hav
          simp only [List.filter_cons]
          rw [if_neg (by simp)]
          exact Nat.lt_succ_of_le (List.length_filter_le _ _)
        · simp only [List.filter_cons]
          rw [if_pos (by simp [hav])]
          simpa using ih hv

theorem totalEdges_removeEdge_le (g : Graph) (u v : Node) :
    totalEdges (removeEdge g u v) ≤ totalEdges g := by
  induction g with
  | nil => simp [removeEdge, updateSucc, totalEdges]
  | cons p t ih =>
      simp only [removeEdge, updateSucc, totalEdges, List.map_cons, List.sum_cons] at *
      by_cases hp : p.1 = u
      · rw [if_pos hp]
        exact Nat.add_le_add (List.length_filter_le _ _) ih
      · rw [if_neg hp]
        exact Nat.add_le_add_left ih _

theorem totalEdges_removeEdge_lt {g : Graph} {u v : Node} {L : List Node}
    (hl : lookup g u = some L) (hv : v ∈ L) :
    totalEdges (removeEdge g u v) < totalEdges g := by
  induction g with
  | nil => cases hl
  | cons p t ih =>
      simp only [lookup] at hl
      simp only [removeEdge, updateSucc, totalEdges, List.map_cons, List.sum_cons]
      by_cases hp : p.1 = u
      · rw [if_pos hp]
        rw [if_pos hp] at hl
        obtain rfl : p.2 = L := by injection hl
        have h1 : (p.2.filter (fun y => y ≠ v)).length < p.2.length :=
          length_filter_ne_lt hv
        have h2 := totalEdges_removeEdge_le t u v
        simp only [removeEdge, updateSucc, totalEdges, setRemove] at h2
        simp only [setRemove]
        omega
      · rw [if_neg hp]
        rw [if_neg hp] at hl
        have := ih hl
        simp only [removeEdge, updateSucc, totalEdges] at this
        omega

/-- One pass of the inner `for m in iter_nodes:` loop of the sorter
(source lines 266-269): remove the edge `n → m` from the working copy and
enqueue `m` the moment it has no incoming edges left. -/
def processSuccs (n : Node) : List Node → Graph → List Node → Graph × List Node
  | [], work, q => (work, q)
  | m :: ms, work, q =>
      let work2 := removeEdge work n m
      let q2 := if (dependencies m work2).length = 0 then q ++ [m] else q
      processSuccs n ms work2 q2

theorem map_update_id (n : Node) (f : List Node → List Node) (hf : ∀ l, f l = l) (work : Graph) :
    work.map (fun p => if p.1 = n then (p.1, f p.2) else p) = work := by
  induction work with
  | nil => rfl
  | cons p t ih =>
      simp only [List.map_cons, ih]
      congr 1
      by_cases hp : p.1 = n
      · rw [if_pos hp, hf]
      · rw [if_neg hp]

theorem processSuccs_fst_eq (n : Node) (ms : List Node) (work : Graph) (q : List Node) :
    (processSuccs n ms work q).1 =
      work.map (fun p => if p.1 = n then (p.1, p.2.filter (fun c => decide (c ∉ ms))) else p) := by
  induction ms generalizing work q with
  | nil =>
      simp only [processSuccs]
      exact (map_update_id n _ (fun l => List.filter_eq_self.mpr (fun a _ => by simp)) work).symm
  | cons m ms ih =>
      simp only [processSuccs]
      rw [ih]
      simp only [removeEdge, updateSucc, List.map_map]
      refine List.map_congr_left (fun p _ => ?_)
      by_cases hp : p.1 = n
      · simp only [Function.comp, if_pos hp, setRemove, List.filter_filter]
        refine congrArg (fun L => (p.1, L)) (List.filter_congr (fun c _ => ?_))
        by_cases hc : c = m <;> by_cases hd : c ∈ ms <;> simp [hc, hd]
      · simp only [Function.comp, if_neg hp]

theorem processSuccs_snd_length_le (n : Node) (ms : List Node) (work : Graph) (q : List Node) :
    (processSuccs n ms work q).2.length ≤ q.length + ms.length := by
  induction ms generalizing work q with
  | nil => simp [processSuccs]
  | cons m ms ih =>
      simp only [processSuccs]
      by_cases h : (dependencies m (removeEdge work n m)).length = 0
      · rw [if_pos h]
        have := ih (removeEdge work n m) (q ++ [m])
        simp only [List.length_append, List.length_cons, List.length_nil] at *
        omega
      · rw [if_neg h]
        have := ih (removeEdge work n m) q
        simp only [List.length_cons] at *
        omega

theorem totalEdges_filterKey_le (n : Node) (f : List Node → List Node)
    (hf : ∀ l, (f l).length ≤ l.length) (work : Graph) :
    totalEdges (work.map (fun p => if p.1 = n then (p.1, f p.2) else p)) ≤ totalEdges work := by
  induction work with
  | nil => simp [totalEdges]
  | cons p t ih =>
      simp only [totalEdges, List.map_cons, List.sum_cons] at *
      by_cases hp : p.1 = n
      · rw [if_pos hp]
        exact Nat.add_le_add (hf p.2) ih
      · rw [if_neg hp]
        exact Nat.add_le_add_left ih _

theorem totalEdges_processSuccs_drop {n : Node} {ms : List Node} {work : Graph}
    (hl : lookup work n = some ms) (q : List Node) :
    totalEdges (processSuccs n ms work q).1 + ms.length ≤ totalEdges work := by
  rw [processSuccs_fst_eq]
  induction work with
  | nil => cases hl
  | cons p t ih =>
      simp only [lookup] at hl
      simp only [totalEdges, List.map_cons, List.sum_cons]
      by_cases hp : p.1 = n
      · rw [if_pos hp]
        rw [if_pos hp] at hl
        obtain rfl : p.2 = ms := by injection hl
        have hz : p.2.filter (fun c => decide (c ∉ p.2)) = [] := by
          rw [List.filter_eq_nil_iff]
          intro a ha
          simp [ha]
        have ht : totalEdges (t.map (fun p2 => if p2.1 = n then (p2.1, p2.2.filter (fun c => decide (c ∉ p.2))) else p2)) ≤ totalEdges t :=
          totalEdges_filterKey_le n _ (fun l => List.length_filter_le _ _) t
        simp only [totalEdges] at ht
        rw [hz]
        simp only [List.length_nil]
        omega
      · rw [if_neg hp]
        rw [if_neg hp] at hl
        have := ih hl
        simp only [totalEdges] at this
        omega

/-- The `while len(q) != 0:` loop of `topological_sort` (source lines
262-269), carrying the working copy, the queue and the output order.
The recursion is bounded by explicit fuel so that the definition stays
kernel-computable; `2 * edges + queue length` strictly decreases with
every iteration (each pass consumes one queue cell and enqueues at most
one node per edge it deletes), so the fuel supplied by `kahnLoop` below
never runs out and the truncation branch is unreachable. -/
def kahnLoopF : Nat → Graph → List Node → List Node → List Node × Graph
  | 0, work, _, l => (l, work)
  | fuel + 1, work, q, l =>
      match q with
      | [] => (l, work)
      | n :: rest =>
          let p := processSuccs n (succs work n) work rest
          kahnLoopF fuel p.1 p.2 (l ++ [n])

/-- The sorter loop with its exact fuel bound. -/
def kahnLoop (work : Graph) (q l : List Node) : List Node × Graph :=
  kahnLoopF (2 * totalEdges work + q.length) work q l

theorem succs_lookup_of_ne_nil {work : Graph} {n : Node} (h : succs work n ≠ []) :
    lookup work n = some (succs work n) := by
  rcases hsome : lookup work n with _ | L
  · exact absurd (by simp [succs, hsome]) h
  · simp [succs, hsome]

theorem kahn_measure_step {work : Graph} {n : Node} {rest : List Node} :
    2 * totalEdges (processSuccs n (succs work n) work rest).1 +
      (processSuccs n (succs work n) work rest).2.length + 1 ≤
    2 * totalEdges work + (n :: rest).length := by
  have h2 := processSuccs_snd_length_le n (succs work n) work rest
  by_cases hnil : succs work n = []
  · rw [hnil] at h2 ⊢
    simp only [processSuccs] at h2 ⊢
    simp only [List.length_cons, List.length_nil] at *
    omega
  · have hl := succs_lookup_of_ne_nil hnil
    have h1 := totalEdges_processSuccs_drop hl rest
    simp only [List.length_cons] at *
    omega

/-- `DAG.topological_sort`, source lines 253-273.  The final length check
compares against the keys of the (edge-drained) working copy; removing
edges never removes a key. -/
def topological_sort (g : Graph) : Except PyErr (List Node) :=
  let p := kahnLoop g (ind_nodes g) []
  if p.1.length ≠ (keys p.2).length then .error (.valueError "graph is not acyclic")
  else .ok p.1

/-- `DAG.validate`, source lines 229-239.  The `ValueError` of the sorter
is caught and mapped to the diagnostic pair; nothing else can be raised on
the states the module builds. -/
def validate (g : Graph) : Bool × String :=
  if (ind_nodes g).length = 0 then (false, "no independent nodes detected")
  else
    match topological_sort g with
    | .error _ => (false, "failed topological sort")
    | .ok _ => (true, "valid")

/-- `DAG.delete_edge`, source lines 70-76. -/
def delete_edge (u v : Node) (s : DAG) : Except PyErr DAG :=
  if v ∈ succs s.graph u then .ok { s with graph := updateSucc s.graph u (fun l => setRemove l v) }
  else .error (.keyError "this edge does not exist in graph")

/-- The `while batch:` loop of `build_levels` (source lines 286-297),
with explicit fuel.  One iteration pops the head of `batch`; a node not
yet leveled is assigned the current level and its unleveled children are
added to `next_batch`; when `batch` drains, `next_batch` is swapped in and
the level counter advances.  The fuel supplied by `build_levels` dominates
the measure `batch + next_batch + edges-out-of-unleveled-keys`, which
strictly decreases each iteration, so the truncation branch is never
taken on a state the module can build. -/
def buildLoopF (g : Graph) : Nat → List Node → List Node → Nat → List (Node × Nat) →
    Except PyErr (List (Node × Nat))
  | 0, _, _, _, levels => .ok levels
  | fuel + 1, batch, nextB, level, levels =>
      match batch with
      | [] => .ok levels
      | node :: rest =>
          match lookup levels node with
          | some _ =>
              if rest.isEmpty then buildLoopF g fuel nextB [] (level + 1) levels
              else buildLoopF g fuel rest nextB level levels
          | none =>
              match lookup g node with
              | none => .error (.keyError "node is not in graph")
              | some children =>
                  let levels2 := levels ++ [(node, level)]
                  let nextB2 := children.foldl
                    (fun nb c => if (lookup levels2 c).isNone then setAdd nb c else nb) nextB
                  if rest.isEmpty then buildLoopF g fuel nextB2 [] (level + 1) levels2
                  else buildLoopF g fuel rest nextB2 level levels2

/-- `DAG.build_levels`, source lines 275-299.  `self.levels` is rebuilt
from scratch; `max(self.levels.values())` is folded from `-1`, which
agrees with Python because the loop always assigns at least one level
when it runs. -/
def build_levels (s : DAG) : Except PyErr DAG :=
  let batch := ind_nodes s.graph
  if batch.isEmpty then .error (.valueError "graph does not have a root")
  else
    match buildLoopF s.graph (batch.length + totalEdges s.graph + 1) batch [] 0 [] with
    | .error e => .error e
    | .ok levels =>
        .ok { s with levels := levels,
                     max_level := (levels.map (fun p => (p.2 : Int))).foldl max (-1) }

/-- `DAG.get_nodes_at_depth`, source lines 301-305.  The level argument is
an integer because `upstream` passes `-1` on its last sweep. -/
def get_nodes_at_depth (levels : List (Node × Nat)) (lvl : Int) : List Node :=
  (levels.filter (fun p => decide ((p.2 : Int) = lvl))).map Prod.fst

/-- `DAG.depth`, source lines 307-310: `self.levels[node]`, `KeyError`
when the node has no assigned level. -/
def depth (s : DAG) (node : Node) : Except PyErr Nat :=
  match lookup s.levels node with
  | none => .error (.keyError "node has no level")
  | some d => .ok d

/-- One sweep of the inner `for possible_parent in possible_parents:` of
`upstream` (source lines 95-98).  The path is carried reversed (`rpath`),
head = `path[-1]`.  The trailing `continue` in the source is the last
statement of the loop body, so it does not cut the scan short: every node
at the level whose successor set holds the current path head is appended,
and the head moves as nodes are appended. -/
def scanLevel (g : Graph) (pp : List Node) (rpath : List Node) : List Node :=
  pp.foldl
    (fun rp p =>
      match rp.head? with
      | some h => if h ∈ succs g p then p :: rp else rp
      | none => rp)
    rpath

/-- The `while depth > -1:` loop of `upstream` (source lines 91-98): the
counter starts at the node's depth and is decremented at the top of each
pass, so levels `d-1, d-2, ..., -1` are each scanned once (`d+1` passes:
the fuel argument). -/
def upstreamLoopF (s : DAG) : Nat → Int → List Node → List Node
  | 0, _, rpath => rpath
  | k + 1, dep, rpath =>
      let dep2 := dep - 1
      upstreamLoopF s k dep2 (scanLevel s.graph (get_nodes_at_depth s.levels dep2) rpath)

/-- `DAG.upstream`, source lines 83-100. -/
def upstream (s : DAG) (node : Node) : Except PyErr (List Node) :=
  if node ∈ keys s.graph then
    match lookup s.levels node with
    | none => .error (.keyError "node has no level")
    | some d => .ok ((upstreamLoopF s (d + 1) (d : Int) [node]).reverse)
  else .ok []

/-- All nodes occurring in some successor set; bounds the visited set of
the reachability walk in `all_downstreams`. -/
def allTargets (g : Graph) : List Node := (g.map Prod.snd).flatten

/-- The `for downstream_node in downstreams:` body (source lines
119-122): append each unseen successor to both the seen set and the
worklist, in order. -/
def bfsFold (ds q seen : List Node) : List Node × List Node :=
  ds.foldl
    (fun (a : List Node × List Node) d =>
      if d ∈ a.2 then a else (a.1 ++ [d], a.2 ++ [d]))
    (q, seen)

/-- The `while i < len(nodes):` loop of `all_downstreams` (source lines
117-123), as a worklist: `nodes[i:]` is the queue, and each unseen
successor is appended to both the seen set and the queue.  Fuel: every
queue insertion after the first moves a fresh node into `seen`, so the
iteration count is bounded by the initial queue plus the number of
distinct successor nodes; the fuel supplied by `all_downstreams` never
runs out. -/
def bfsLoopF (g : Graph) : Nat → List Node → List Node → Except PyErr (List Node)
  | 0, _, seen => .ok seen
  | fuel + 1, q, seen =>
      match q with
      | [] => .ok seen
      | x :: rest =>
          match lookup g x with
          | none => .error (.keyError "node is not in graph")
          | some ds =>
              let p := bfsFold ds rest seen
              bfsLoopF g fuel p.1 p.2

/-- `DAG.all_downstreams`, source lines 109-124: reachability walk from
`node`, then the lazily-filtered `topological_sort` (the sort is computed
when `filter(...)` is built, so a cyclic graph raises here). -/
def all_downstreams (g : Graph) (node : Node) : Except PyErr (List Node) := do
  let seen ← bfsLoopF g (1 + (allTargets g).dedup.length) [node] []
  let ts ← topological_sort g
  .ok (ts.filter (fun v => decide (v ∈ seen)))

/-- `DAG.topological_sort` viewed as a method call on the object state:
the body only reads `self.graph` (line 258 immediately deep-copies it)
and never assigns an attribute, so the state comes back as it went in. -/
def topological_sortM (s : DAG) : Except PyErr (List Node) × DAG :=
  (topological_sort s.graph, s)

/-- `DAG.validate` viewed as a method call on the object state: the body
reads `self.ind_nodes()` and calls `topological_sort`; no attribute is
assigned on any path, succeeding or failing. -/
def validateM (s : DAG) : (Bool × String) × DAG :=
  (validate s.graph, s)

/-- `DAG.add_edge`, source lines 49-67.  The method inserts the edge into
the live graph, validates, and on failure removes the edge again and
*prints* the diagnostic; it returns normally in every case where both
endpoints exist.  (`validate` never raises `DAGValidationError`, so the
`except` clause on line 65 is dead code.) -/
def add_edge (u v : Node) (s : DAG) : Except PyErr DAG :=
  if u ∈ keys s.graph ∧ v ∈ keys s.graph then
    if v ∈ succs s.graph u then .ok s
    else
      let g1 := updateSucc s.graph u (fun l => setAdd l v)
      if (validate g1).1 then .ok { s with graph := g1 }
      else .ok { s with graph := updateSucc g1 u (fun l => setRemove l v) }
  else .error (.keyError "one or more nodes do not exist in graph")

/-! ### Association-list bridge lemmas -/

theorem lookup_eq_none_iff {α : Type} {l : List (Node × α)} {n : Node} :
    lookup l n = none ↔ n ∉ keys l := by
  induction l with
  | nil => simp [lookup, keys]
  | cons p t ih =>
      simp only [lookup, keys, List.map_cons, List.mem_cons]
      rw [keys] at ih
      by_cases hp : p.1 = n
      · rw [if_pos hp]
        constructor
        · intro h
          cases h
        · intro h
          exact absurd (Or.inl hp.symm) h
      · rw [if_neg hp, ih]
        constructor
        · intro h hor
          rcases hor with h1 | h2
          · exact hp h1.symm
          · exact h h2
        · intro h h2
          exact h (Or.inr h2)

theorem lookup_isSome_of_mem_keys {α : Type} {l : List (Node × α)} {n : Node}
    (h : n ∈ keys l) : ∃ v, lookup l n = some v := by
  rcases hl : lookup l n with _ | v
  · exact absurd (lookup_eq_none_iff.mp hl) (by simp [h])
  · exact ⟨v, rfl⟩

theorem lookup_mem {α : Type} {l : List (Node × α)} {n : Node} {v : α}
    (h : lookup l n = some v) : (n, v) ∈ l := by
  induction l with
  | nil => cases h
  | cons p t ih =>
      simp only [lookup] at h
      by_cases hp : p.1 = n
      · rw [if_pos hp] at h
        obtain rfl : p.2 = v := by injection h
        rw [← hp]
        exact List.mem_cons_self _ _
      · rw [if_neg hp] at h
        exact List.mem_cons_of_mem _ (ih h)

theorem mem_keys_of_lookup {α : Type} {l : List (Node × α)} {n : Node} {v : α}
    (h : lookup l n = some v) : n ∈ keys l := by
  by_contra hn
  rw [← lookup_eq_none_iff] at hn
  rw [h] at hn
  cases hn

theorem lookup_of_mem_nodup {α : Type} {l : List (Node × α)} {n : Node} {v : α}
    (hk : (keys l).Nodup) (h : (n, v) ∈ l) : lookup l n = some v := by
  induction l with
  | nil => cases h
  | cons p t ih =>
      simp only [keys, List.map_cons, List.nodup_cons] at hk
      rcases List.mem_cons.mp h with rfl | hm
      · simp [lookup]
      · simp only [lookup]
        by_cases hp : p.1 = n
        · exfalso
          refine hk.1 ?_
          rw [hp]
          exact List.mem_map_of_mem Prod.fst hm
        · rw [if_neg hp]
          exact ih hk.2 hm

theorem succs_eq_of_mem_nodup {g : Graph} {n : Node} {L : List Node}
    (hk : (keys g).Nodup) (h : (n, L) ∈ g) : succs g n = L := by
  rw [succs, lookup_of_mem_nodup hk h]
  rfl

theorem lookup_append {α : Type} (l1 l2 : List (Node × α)) (n : Node) :
    lookup (l1 ++ l2) n =
      match lookup l1 n with
      | some v => some v
      | none => lookup l2 n := by
  induction l1 with
  | nil => simp [lookup]
  | cons p t ih =>
      by_cases hp : p.1 = n
      · simp only [List.cons_append, lookup, if_pos hp]
      · simp only [List.cons_append, lookup, if_neg hp]
        exact ih

theorem lookup_append_of_some {α : Type} {l1 : List (Node × α)} {n : Node} {v : α}
    (l2 : List (Node × α)) (h : lookup l1 n = some v) : lookup (l1 ++ l2) n = some v := by
  rw [lookup_append, h]

theorem edge_mem_keys {g : Graph} {u v : Node} (h : Edge g u v) : u ∈ keys g := by
  rw [Edge, succs] at h
  rcases hl : lookup g u with _ | L
  · rw [hl] at h
    cases h
  · exact mem_keys_of_lookup hl

theorem edge_iff_entry {g : Graph} (hk : (keys g).Nodup) (u v : Node) :
    Edge g u v ↔ ∃ p ∈ g, p.1 = u ∧ v ∈ p.2 := by
  constructor
  · intro h
    have hu := edge_mem_keys h
    obtain ⟨L, hL⟩ := lookup_isSome_of_mem_keys hu
    refine ⟨(u, L), lookup_mem hL, rfl, ?_⟩
    rw [Edge, succs, hL] at h
    exact h
  · rintro ⟨p, hp, rfl, hv⟩
    have hmem : (p.1, p.2) ∈ g := hp
    rw [Edge, succs_eq_of_mem_nodup hk hmem]
    exact hv

theorem mem_ind_nodes_iff {g : Graph} {n : Node} :
    n ∈ ind_nodes g ↔ n ∈ keys g ∧ ∀ p ∈ g, n ∉ p.2 := by
  rw [ind_nodes, List.mem_filter]
  simp

theorem mem_ind_nodes_iff_no_edge {g : Graph} (hk : (keys g).Nodup) (n : Node) :
    n ∈ ind_nodes g ↔ n ∈ keys g ∧ ∀ u, ¬ Edge g u n := by
  rw [mem_ind_nodes_iff]
  refine and_congr_right (fun _ => ⟨fun h u he => ?_, fun h p hp hn => ?_⟩)
  · rw [edge_iff_entry hk] at he
    obtain ⟨p, hp, _, hv⟩ := he
    exact h p hp hv
  · exact h p.1 ((edge_iff_entry hk p.1 n).mpr ⟨p, hp, rfl, hn⟩)

theorem ind_nodes_sub_keys (g : Graph) : ∀ n ∈ ind_nodes g, n ∈ keys g :=
  fun _ h => (mem_ind_nodes_iff.mp h).1

theorem ind_nodes_nodup {g : Graph} (hk : (keys g).Nodup) : (ind_nodes g).Nodup :=
  List.Nodup.filter _ hk

theorem dependencies_eq_nil_iff {g : Graph} {v : Node} :
    dependencies v g = [] ↔ ∀ p ∈ g, v ∉ p.2 := by
  rw [dependencies, List.map_eq_nil_iff, List.filter_eq_nil_iff]
  simp

/-! ### Cycles and acyclicity -/

/-- The graph has a directed cycle: some node reaches itself through one
or more successor edges. -/
def HasCycle (g : Graph) : Prop := ∃ n, Relation.TransGen (Edge g) n n

/-! ### Characterising one pass of the sorter inner loop -/

theorem filter_not_mem_self (l : List Node) : l.filter (fun c => decide (c ∉ l)) = [] := by
  rw [List.filter_eq_nil_iff]
  intro a ha
  simp [ha]

theorem lookup_map_filterKey (n x : Node) (f : Node → Bool) :
    ∀ w : Graph, lookup (w.map (fun p => if p.1 = n then (p.1, p.2.filter f) else p)) x =
      if x = n then Option.map (List.filter f) (lookup w n) else lookup w x := by
  intro w
  induction w with
  | nil => by_cases hxn : x = n <;> simp [lookup, hxn]
  | cons p t ih =>
      by_cases hpn : p.1 = n
      · by_cases hpx : p.1 = x
        · subst hpx
          simp [lookup, hpn, List.map_cons]
        · have hxn : ¬ x = n := fun h => hpx (hpn.trans h.symm)
          have hnx : ¬ n = x := fun h => hxn h.symm
          simp [lookup, hpn, hpx, hxn, hnx, List.map_cons, ih]
      · by_cases hpx : p.1 = x
        · subst hpx
          simp [lookup, hpn, List.map_cons]
        · simp [lookup, hpn, hpx, List.map_cons, ih]

theorem succs_map_filterKey (n x : Node) (f : Node → Bool) (w : Graph) :
    succs (w.map (fun p => if p.1 = n then (p.1, p.2.filter f) else p)) x =
      if x = n then (succs w n).filter f else succs w x := by
  rw [succs, lookup_map_filterKey]
  by_cases hxn : x = n
  · rw [if_pos hxn, if_pos hxn, succs]
    rcases lookup w n with _ | L
    · rfl
    · rfl
  · rw [if_neg hxn, if_neg hxn, succs]

theorem dependencies_map_filter {t n : Node} {f : Node → Bool} (hf : f t = true) (w : Graph) :
    dependencies t (w.map (fun p => if p.1 = n then (p.1, p.2.filter f) else p)) =
      dependencies t w := by
  induction w with
  | nil => rfl
  | cons p tl ih =>
      simp only [dependencies, List.map_cons, List.filter_cons] at *
      have hmem : (t ∈ (if p.1 = n then (p.1, p.2.filter f) else p).2) ↔ t ∈ p.2 := by
        by_cases hpn : p.1 = n
        · rw [if_pos hpn]
          simp only [List.mem_filter, hf, and_true]
        · rw [if_neg hpn]
      have hfst : (if p.1 = n then (p.1, p.2.filter f) else p).1 = p.1 := by
        by_cases hpn : p.1 = n
        · rw [if_pos hpn]
        · rw [if_neg hpn]
      have hcond : decide (t ∈ (if p.1 = n then (p.1, p.2.filter f) else p).2) =
          decide (t ∈ p.2) := decide_eq_decide.mpr hmem
      rw [hcond]
      by_cases ht : t ∈ p.2
      · rw [if_pos (decide_eq_true ht), if_pos (decide_eq_true ht)]
        simp only [List.map_cons, hfst]
        rw [ih]
      · rw [if_neg (by simpa using ht), if_neg (by simpa using ht)]
        exact ih

theorem dependencies_processSuccs_stable {n t : Node} :
    ∀ (ms : List Node) (work : Graph) (q : List Node), t ∉ ms →
      dependencies t (processSuccs n ms work q).1 = dependencies t work := by
  intro ms work q hmem
  rw [processSuccs_fst_eq]
  exact dependencies_map_filter (by simpa using hmem) work

theorem processSuccs_snd_eq {n : Node} :
    ∀ (ms : List Node) (work : Graph) (q : List Node), ms.Nodup →
      (processSuccs n ms work q).2 =
        q ++ ms.filter
          (fun m => decide ((dependencies m (processSuccs n ms work q).1).length = 0)) := by
  intro ms
  induction ms with
  | nil =>
      intro work q _
      simp [processSuccs]
  | cons m ms ih =>
      intro work q hnd
      obtain ⟨hm, hnd2⟩ := List.nodup_cons.mp hnd
      by_cases hcond : (dependencies m (removeEdge work n m)).length = 0
      · have hred : processSuccs n (m :: ms) work q =
            processSuccs n ms (removeEdge work n m) (q ++ [m]) := by
          simp only [processSuccs]
          rw [if_pos hcond]
        rw [hred, ih (removeEdge work n m) (q ++ [m]) hnd2, List.filter_cons]
        have hpredm : decide ((dependencies m
              (processSuccs n ms (removeEdge work n m) (q ++ [m])).1).length = 0) = true := by
          rw [dependencies_processSuccs_stable ms _ _ hm]
          exact decide_eq_true hcond
        rw [hpredm, if_pos rfl]
        simp
      · have hred : processSuccs n (m :: ms) work q =
            processSuccs n ms (removeEdge work n m) q := by
          simp only [processSuccs]
          rw [if_neg hcond]
        rw [hred, ih (removeEdge work n m) q hnd2, List.filter_cons]
        have hpredm : decide ((dependencies m
              (processSuccs n ms (removeEdge work n m) q).1).length = 0) = false := by
          rw [dependencies_processSuccs_stable ms _ _ hm]
          simpa using hcond
        rw [hpredm]
        rw [if_neg (by simp)]

theorem succs_processSuccs_self (n : Node) (work : Graph) (q : List Node) :
    ∀ x, succs (processSuccs n (succs work n) work q).1 x =
      if x = n then [] else succs work x := by
  intro x
  rw [processSuccs_fst_eq, succs_map_filterKey]
  by_cases hxn : x = n
  · rw [if_pos hxn, if_pos hxn, filter_not_mem_self]
  · rw [if_neg hxn, if_neg hxn]

/-! ### Sublist shape of the working copy -/

/-- The working copy of the sorter: same keys in the same order, each
successor set a sublist of the original one. -/
def Shape (w g : Graph) : Prop :=
  List.Forall₂ (fun p q => p.1 = q.1 ∧ p.2.Sublist q.2) w g

theorem shape_refl (g : Graph) : Shape g g :=
  List.forall₂_same.mpr (fun _ _ => ⟨rfl, List.Sublist.refl _⟩)

theorem shape_keys {w g : Graph} (h : Shape w g) : keys w = keys g := by
  induction h with
  | nil => rfl
  | cons h1 _ ih =>
      simp only [keys, List.map_cons] at *
      rw [h1.1, ih]

theorem shape_succs {w g : Graph} (h : Shape w g) : ∀ x, (succs w x).Sublist (succs g x) := by
  intro x
  induction h with
  | nil => exact List.Sublist.refl _
  | cons h1 _ ih =>
      rename_i p q _ _
      by_cases hp : p.1 = x
      · simp only [succs, lookup, if_pos hp, if_pos (h1.1 ▸ hp), Option.getD_some]
        exact h1.2
      · simp only [succs, lookup, if_neg hp, if_neg (h1.1 ▸ hp)]
        exact ih

theorem shape_map_filter {w g : Graph} (n : Node) (f : Node → Bool) (h : Shape w g) :
    Shape (w.map (fun p => if p.1 = n then (p.1, p.2.filter f) else p)) g := by
  rw [Shape, List.forall₂_map_left_iff]
  refine List.Forall₂.imp (fun p q hpq => ?_) h
  by_cases hpn : p.1 = n
  · rw [if_pos hpn]
    exact ⟨hpq.1, (List.filter_sublist _).trans hpq.2⟩
  · rw [if_neg hpn]
    exact hpq

theorem shape_processSuccs {w g : Graph} (n : Node) (ms : List Node) (q : List Node)
    (h : Shape w g) : Shape (processSuccs n ms w q).1 g := by
  rw [processSuccs_fst_eq]
  exact shape_map_filter n _ h

/-! ### Well-formedness helpers -/

theorem wf_succs_nodup {g : Graph} (hwf : WF g) (n : Node) : (succs g n).Nodup := by
  rcases hl : lookup g n with _ | L
  · simp [succs, hl]
  · rw [succs, hl]
    exact (hwf.2 _ (lookup_mem hl)).1

theorem wf_succs_sub_keys {g : Graph} (hwf : WF g) (n : Node) :
    ∀ c ∈ succs g n, c ∈ keys g := by
  rcases hl : lookup g n with _ | L
  · simp [succs, hl]
  · rw [succs, hl]
    exact (hwf.2 _ (lookup_mem hl)).2

theorem edge_target_mem_keys {g : Graph} (hwf : WF g) {u v : Node} (h : Edge g u v) :
    v ∈ keys g :=
  wf_succs_sub_keys hwf u v h

theorem ind_nodes_eq_nil_iff {g : Graph} :
    ind_nodes g = [] ↔ ∀ n ∈ keys g, ∃ p ∈ g, n ∈ p.2 := by
  rw [ind_nodes, List.filter_eq_nil_iff]
  constructor
  · intro h n hn
    have := h n hn
    simpa using this
  · intro h n hn
    simpa using h n hn

/-! ### Output-order bookkeeping -/

/-- `u` occurs strictly before `v` in the list `l`. -/
def Before (l : List Node) (u v : Node) : Prop :=
  ∃ i j, i < j ∧ l.get? i = some u ∧ l.get? j = some v

theorem before_append_right {l : List Node} {u v : Node} (t : List Node) (h : Before l u v) :
    Before (l ++ t) u v := by
  obtain ⟨i, j, hij, hi, hj⟩ := h
  have hilen : i < l.length := (List.get?_eq_some.mp hi).1
  have hjlen : j < l.length := (List.get?_eq_some.mp hj).1
  refine ⟨i, j, hij, ?_, ?_⟩
  · rw [List.get?_append hilen]
    exact hi
  · rw [List.get?_append hjlen]
    exact hj

theorem before_concat {l : List Node} {u : Node} (n : Node) (h : u ∈ l) :
    Before (l ++ [n]) u n := by
  obtain ⟨i, hi⟩ := List.mem_iff_get?.mp h
  have hilen : i < l.length := (List.get?_eq_some.mp hi).1
  refine ⟨i, l.length, hilen, ?_, ?_⟩
  · rw [List.get?_append hilen]
    exact hi
  · exact List.get?_concat_length l n

theorem before_trans {l : List Node} (hnd : l.Nodup) {a b c : Node}
    (h1 : Before l a b) (h2 : Before l b c) : Before l a c := by
  obtain ⟨i, j, hij, hi, hj⟩ := h1
  obtain ⟨j2, k, hjk, hj2, hk⟩ := h2
  have hjlen : j < l.length := (List.get?_eq_some.mp hj).1
  have hjj : j = j2 := List.get?_inj hjlen hnd (by rw [hj, hj2])
  exact ⟨i, k, by omega, hi, hk⟩

theorem before_irrefl {l : List Node} (hnd : l.Nodup) (a : Node) : ¬ Before l a a := by
  rintro ⟨i, j, hij, hi, hj⟩
  have hilen : i < l.length := (List.get?_eq_some.mp hi).1
  have : i = j := List.get?_inj hilen hnd (by rw [hi, hj])
  omega

/-! ### The sorter loop invariant -/

/-- Invariant of the Kahn loop, relating the original graph `g0`, the
working copy `work`, the pending queue `q` and the emitted order `l`. -/
structure KInv (g0 work : Graph) (q l : List Node) : Prop where
  shape : Shape work g0
  nodup : (l ++ q).Nodup
  subK : ∀ x ∈ l ++ q, x ∈ keys g0
  done : ∀ x ∈ l, succs work x = []
  fresh : ∀ u, u ∉ l → succs work u = succs g0 u
  preds : ∀ v ∈ q, ∀ u, Edge g0 u v → u ∈ l
  order : ∀ v ∈ l, ∀ u, Edge g0 u v → u ∈ l ∧ Before l u v
  zero : ∀ v ∈ keys g0, dependencies v work = [] → v ∈ l ++ q

theorem kinv_init {g0 : Graph} (hwf : WF g0) : KInv g0 g0 (ind_nodes g0) [] := by
  refine ⟨shape_refl g0, ?_, ?_, ?_, ?_, ?_, ?_, ?_⟩
  · simpa using ind_nodes_nodup hwf.1
  · intro x hx
    simp only [List.nil_append] at hx
    exact ind_nodes_sub_keys g0 x hx
  · intro x hx
    cases hx
  · intro u _
    rfl
  · intro v hv u he
    simp only [List.nil_append] at hv
    exact absurd he (((mem_ind_nodes_iff_no_edge hwf.1 v).mp hv).2 u)
  · intro v hv
    cases hv
  · intro v hv hdeps
    simp only [List.nil_append]
    rw [mem_ind_nodes_iff]
    exact ⟨hv, dependencies_eq_nil_iff.mp hdeps⟩

theorem kinv_step {g0 : Graph} (hwf : WF g0) {work : Graph} {l : List Node} {n : Node}
    {rest : List Node} (inv : KInv g0 work (n :: rest) l) :
    KInv g0 (processSuccs n (succs work n) work rest).1
      (processSuccs n (succs work n) work rest).2 (l ++ [n]) := by
  have hkeys0 : (keys g0).Nodup := hwf.1
  have hnl : n ∉ l := by
    obtain ⟨_, _, hdisj⟩ := List.nodup_append.mp inv.nodup
    exact fun h => hdisj h (List.mem_cons_self n rest)
  have hfreshN : succs work n = succs g0 n := inv.fresh n hnl
  have hnK : n ∈ keys g0 := inv.subK n (by simp)
  have hmsN : (succs work n).Nodup := by
    rw [hfreshN]
    exact wf_succs_nodup hwf n
  have hmsK : ∀ c ∈ succs work n, c ∈ keys g0 := by
    rw [hfreshN]
    exact wf_succs_sub_keys hwf n
  have hmsE : ∀ c ∈ succs work n, Edge g0 n c := by
    rw [hfreshN]
    exact fun _ hc => hc
  have hsucc2 : ∀ x, succs (processSuccs n (succs work n) work rest).1 x =
      if x = n then [] else succs work x := succs_processSuccs_self n work rest
  have hq2 : (processSuccs n (succs work n) work rest).2 =
      rest ++ (succs work n).filter
        (fun m => decide ((dependencies m
          (processSuccs n (succs work n) work rest).1).length = 0)) :=
    processSuccs_snd_eq (succs work n) work rest hmsN
  have hdepstab : ∀ t, t ∉ succs work n →
      dependencies t (processSuccs n (succs work n) work rest).1 = dependencies t work :=
    fun t ht => dependencies_processSuccs_stable (succs work n) work rest ht
  have hnewms : ∀ m ∈ (succs work n).filter
      (fun m => decide ((dependencies m
        (processSuccs n (succs work n) work rest).1).length = 0)), m ∈ succs work n :=
    fun m hm => List.mem_of_mem_filter hm
  have hnewdeps : ∀ m ∈ (succs work n).filter
      (fun m => decide ((dependencies m
        (processSuccs n (succs work n) work rest).1).length = 0)),
      dependencies m (processSuccs n (succs work n) work rest).1 = [] := by
    intro m hm
    exact List.length_eq_zero.mp (of_decide_eq_true ((List.mem_filter.mp hm).2))
  have hnewE : ∀ m ∈ (succs work n).filter
      (fun m => decide ((dependencies m
        (processSuccs n (succs work n) work rest).1).length = 0)), Edge g0 n m :=
    fun m hm => hmsE m (hnewms m hm)
  have hnew_notl : ∀ m ∈ (succs work n).filter
      (fun m => decide ((dependencies m
        (processSuccs n (succs work n) work rest).1).length = 0)), m ∉ l := by
    intro m hm hml
    exact hnl ((inv.order m hml n (hnewE m hm)).1)
  have hnew_ne : ∀ m ∈ (succs work n).filter
      (fun m => decide ((dependencies m
        (processSuccs n (succs work n) work rest).1).length = 0)), m ≠ n := by
    intro m hm he
    exact hnl (inv.preds n (List.mem_cons_self n rest) n (he ▸ hnewE m hm))
  have hnew_notrest : ∀ m ∈ (succs work n).filter
      (fun m => decide ((dependencies m
        (processSuccs n (succs work n) work rest).1).length = 0)), m ∉ rest := by
    intro m hm hmr
    exact hnl (inv.preds m (List.mem_cons_of_mem n hmr) n (hnewE m hm))
  have hnewnd : ((succs work n).filter
      (fun m => decide ((dependencies m
        (processSuccs n (succs work n) work rest).1).length = 0))).Nodup :=
    List.Nodup.filter _ hmsN
  have hbase : ((l ++ [n]) ++ rest).Nodup := by
    have h0 := inv.nodup
    rw [List.append_cons l n rest] at h0
    exact h0
  refine ⟨shape_processSuccs n _ rest inv.shape, ?_, ?_, ?_, ?_, ?_, ?_, ?_⟩
  · -- nodup
    rw [hq2, ← List.append_assoc]
    refine List.Nodup.append hbase hnewnd ?_
    intro a ha1 ha2
    rcases List.mem_append.mp ha1 with h | h
    · rcases List.mem_append.mp h with h2 | h2
      · exact hnew_notl a ha2 h2
      · exact hnew_ne a ha2 (List.mem_singleton.mp h2)
    · exact hnew_notrest a ha2 h
  · -- subK
    intro x hx
    rw [hq2] at hx
    rcases List.mem_append.mp hx with h | h
    · rcases List.mem_append.mp h with h2 | h2
      · exact inv.subK x (List.mem_append_left _ h2)
      · rw [List.mem_singleton.mp h2]
        exact hnK
    · rcases List.mem_append.mp h with h2 | h2
      · exact inv.subK x (List.mem_append_right _ (List.mem_cons_of_mem n h2))
      · exact hmsK x (hnewms x h2)
  · -- done
    intro x hx
    rw [hsucc2 x]
    rcases List.mem_append.mp hx with h | h
    · have hxn : ¬ x = n := fun he => hnl (he ▸ h)
      rw [if_neg hxn]
      exact inv.done x h
    · rw [if_pos (List.mem_singleton.mp h)]
  · -- fresh
    intro u hu
    have hun : ¬ u = n := fun he => hu (List.mem_append_right _ (by rw [he]; exact List.mem_singleton_self n))
    have hul : u ∉ l := fun he => hu (List.mem_append_left _ he)
    rw [hsucc2 u, if_neg hun]
    exact inv.fresh u hul
  · -- preds
    intro v hv u he
    rw [hq2] at hv
    rcases List.mem_append.mp hv with h | h
    · exact List.mem_append_left _ (inv.preds v (List.mem_cons_of_mem n h) u he)
    · by_contra hu
      have hun : ¬ u = n := fun heq => hu (List.mem_append_right _ (by rw [heq]; exact List.mem_singleton_self n))
      have hul : u ∉ l := fun heq => hu (List.mem_append_left _ heq)
      have hfru : succs (processSuccs n (succs work n) work rest).1 u = succs g0 u := by
        rw [hsucc2 u, if_neg hun]
        exact inv.fresh u hul
      have hvin : v ∈ succs (processSuccs n (succs work n) work rest).1 u := by
        rw [hfru]
        exact he
      have hne : succs (processSuccs n (succs work n) work rest).1 u ≠ [] :=
        List.ne_nil_of_mem hvin
      have hlk := succs_lookup_of_ne_nil hne
      have hmem := lookup_mem hlk
      have := dependencies_eq_nil_iff.mp (hnewdeps v h) _ hmem
      exact this hvin
  · -- order
    intro v hv u he
    rcases List.mem_append.mp hv with h | h
    · obtain ⟨hul, hb⟩ := inv.order v h u he
      exact ⟨List.mem_append_left _ hul, before_append_right [n] hb⟩
    · have hvn := List.mem_singleton.mp h
      subst hvn
      have hul : u ∈ l := inv.preds v (List.mem_cons_self v rest) u he
      exact ⟨List.mem_append_left _ hul, before_concat v hul⟩
  · -- zero
    intro v hk hdeps
    rw [hq2]
    by_cases hv : v ∈ succs work n
    · have : v ∈ (succs work n).filter
          (fun m => decide ((dependencies m
            (processSuccs n (succs work n) work rest).1).length = 0)) := by
        refine List.mem_filter.mpr ⟨hv, ?_⟩
        rw [hdeps]
        rfl
      exact List.mem_append_right _ (List.mem_append_right _ this)
    · have hw : dependencies v work = [] := by
        rw [← hdepstab v hv]
        exact hdeps
      have hold := inv.zero v hk hw
      rcases List.mem_append.mp hold with h | h
      · exact List.mem_append_left _ (List.mem_append_left _ h)
      · rcases List.mem_cons.mp h with h2 | h2
        · exact List.mem_append_left _ (List.mem_append_right _ (by rw [h2]; exact List.mem_singleton_self n))
        · exact List.mem_append_right _ (List.mem_append_left _ h2)

theorem kahnLoopF_spec {g0 : Graph} (hwf : WF g0) :
    ∀ (fuel : Nat) (work : Graph) (q l : List Node),
      2 * totalEdges work + q.length ≤ fuel → KInv g0 work q l →
      ∃ l2 work2, kahnLoopF fuel work q l = (l2, work2) ∧ KInv g0 work2 [] l2 := by
  intro fuel
  induction fuel with
  | zero =>
      intro work q l hfuel inv
      have hq : q = [] := List.length_eq_zero.mp (by omega)
      subst hq
      exact ⟨l, work, rfl, inv⟩
  | succ fuel ih =>
      intro work q l hfuel inv
      rcases q with _ | ⟨n, rest⟩
      · exact ⟨l, work, rfl, inv⟩
      · have hstep := kinv_step hwf inv
        have hmeas := @kahn_measure_step work n rest
        simp only [List.length_cons] at hfuel hmeas
        obtain ⟨l2, work2, heq, hinv⟩ :=
          ih (processSuccs n (succs work n) work rest).1
            (processSuccs n (succs work n) work rest).2 (l ++ [n]) (by omega) hstep
        refine ⟨l2, work2, ?_, hinv⟩
        simp only [kahnLoopF]
        exact heq

theorem kahnLoop_spec {g0 : Graph} (hwf : WF g0) :
    ∃ l2 work2, kahnLoop g0 (ind_nodes g0) [] = (l2, work2) ∧ KInv g0 work2 [] l2 :=
  kahnLoopF_spec hwf _ g0 (ind_nodes g0) [] (le_refl _) (kinv_init hwf)

/-! ### Kahn correctness -/

theorem hasCycle_of_closed_preds {g : Graph} {S : Finset Node} (hne : S.Nonempty)
    (h : ∀ v ∈ S, ∃ u ∈ S, Edge g u v) : HasCycle g := by
  classical
  have h2 : ∀ v : Node, ∃ u : Node, v ∈ S → u ∈ S ∧ Edge g u v := by
    intro v
    by_cases hv : v ∈ S
    · obtain ⟨u, hu1, hu2⟩ := h v hv
      exact ⟨u, fun _ => ⟨hu1, hu2⟩⟩
    · exact ⟨v, fun hc => absurd hc hv⟩
  choose F hF using h2
  obtain ⟨v0, hv0⟩ := hne
  have hiter : ∀ k, F^[k] v0 ∈ S := by
    intro k
    induction k with
    | zero => simpa using hv0
    | succ k ih =>
        rw [Function.iterate_succ_apply']
        exact (hF _ ih).1
  have htg : ∀ (k : Nat) (x : Node), (∀ m, F^[m] x ∈ S) → 1 ≤ k →
      Relation.TransGen (Edge g) (F^[k] x) x := by
    intro k
    induction k with
    | zero =>
        intro x _ h1
        exact absurd h1 (by omega)
    | succ k ih =>
        intro x hx _
        rcases Nat.eq_zero_or_pos k with rfl | hk
        · have hx0 : x ∈ S := by simpa using hx 0
          have : F^[1] x = F x := Function.iterate_one F ▸ rfl
          rw [this]
          exact Relation.TransGen.single ((hF x hx0).2)
        · rw [Function.iterate_succ_apply']
          exact Relation.TransGen.head ((hF _ (hx k)).2) (ih x hx hk)
  have hmap : ∀ i ∈ Finset.range (S.card + 1), F^[i] v0 ∈ S := fun i _ => hiter i
  have hcard : S.card < (Finset.range (S.card + 1)).card := by simp
  obtain ⟨i, _, j, _, hne2, heqij⟩ :=
    Finset.exists_ne_map_eq_of_card_lt_of_maps_to hcard hmap
  have key : ∀ i j : Nat, i < j → F^[i] v0 = F^[j] v0 → HasCycle g := by
    intro i j hij heq2
    have hx : ∀ m, F^[m] (F^[i] v0) ∈ S := by
      intro m
      rw [← Function.iterate_add_apply]
      exact hiter (m + i)
    have h1 : Relation.TransGen (Edge g) (F^[j - i] (F^[i] v0)) (F^[i] v0) :=
      htg (j - i) _ hx (by omega)
    have h2 : F^[j - i] (F^[i] v0) = F^[j] v0 := by
      rw [← Function.iterate_add_apply]
      congr 1
      omega
    rw [h2, ← heq2] at h1
    exact ⟨F^[i] v0, h1⟩
  rcases Nat.lt_or_ge i j with hij | hij
  · exact key i j hij heqij
  · exact key j i (by omega) heqij.symm

theorem before_of_transGen {g0 : Graph} {l : List Node} (hnd : l.Nodup)
    (horder : ∀ v ∈ l, ∀ u, Edge g0 u v → u ∈ l ∧ Before l u v)
    {a b : Node} (h : Relation.TransGen (Edge g0) a b) (hb : b ∈ l) :
    a ∈ l ∧ Before l a b := by
  revert hb
  induction h with
  | single he =>
      intro hb
      exact horder _ hb _ he
  | tail h1 he ih =>
      intro hb
      obtain ⟨hbl2, hbb⟩ := horder _ hb _ he
      obtain ⟨hal, hab⟩ := ih hbl2
      exact ⟨hal, before_trans hnd hab hbb⟩

theorem sort_eq {g : Graph} {l2 : List Node} {work2 : Graph}
    (heq : kahnLoop g (ind_nodes g) [] = (l2, work2)) :
    topological_sort g = if l2.length ≠ (keys work2).length
      then .error (.valueError "graph is not acyclic") else .ok l2 := by
  simp only [topological_sort, heq]

theorem not_hasCycle_of_sort_ok {g : Graph} {l : List Node} (hwf : WF g)
    (hok : topological_sort g = .ok l) : ¬ HasCycle g := by
  obtain ⟨l2, work2, heq, inv⟩ := kahnLoop_spec hwf
  have hts := sort_eq heq
  rw [hok] at hts
  by_cases hlen : l2.length ≠ (keys work2).length
  · rw [if_pos hlen] at hts
    cases hts
  · rw [if_neg hlen] at hts
    obtain rfl : l = l2 := by injection hts
    have hnd : l.Nodup := by simpa using inv.nodup
    have hkeq : keys work2 = keys g := shape_keys inv.shape
    push_neg at hlen
    rw [hkeq] at hlen
    have hsub : ∀ x ∈ l, x ∈ keys g := fun x hx => inv.subK x (by simpa using hx)
    have hperm : l.Perm (keys g) :=
      List.Subperm.perm_of_length_le (List.Nodup.subperm hnd hsub) (by omega)
    rintro ⟨n, hn⟩
    have hnk : n ∈ keys g := by
      cases hn with
      | single he => exact edge_target_mem_keys hwf he
      | tail h1 he => exact edge_target_mem_keys hwf he
    have hnl : n ∈ l := hperm.mem_iff.mpr hnk
    obtain ⟨_, hbb⟩ := before_of_transGen hnd inv.order hn hnl
    exact before_irrefl hnd n hbb

theorem sort_ok_of_not_hasCycle {g : Graph} (hwf : WF g) (hac : ¬ HasCycle g) :
    ∃ l, topological_sort g = .ok l ∧ l.Perm (keys g) ∧
      ∀ u v, Edge g u v → Before l u v := by
  classical
  obtain ⟨l2, work2, heq, inv⟩ := kahnLoop_spec hwf
  have hnd : l2.Nodup := by simpa using inv.nodup
  have hsub : ∀ x ∈ l2, x ∈ keys g := fun x hx => inv.subK x (by simpa using hx)
  have hkeq : keys work2 = keys g := shape_keys inv.shape
  have hcov : ∀ v ∈ keys g, v ∈ l2 := by
    by_contra hcon
    push_neg at hcon
    obtain ⟨v0, hv0k, hv0l⟩ := hcon
    have hne : ((keys g).toFinset.filter (fun x => x ∉ l2)).Nonempty :=
      ⟨v0, by simp [hv0k, hv0l]⟩
    have hclosed : ∀ v ∈ (keys g).toFinset.filter (fun x => x ∉ l2),
        ∃ u ∈ (keys g).toFinset.filter (fun x => x ∉ l2), Edge g u v := by
      intro v hv
      simp only [Finset.mem_filter, List.mem_toFinset] at hv
      obtain ⟨hvk, hvl⟩ := hv
      have hdne : dependencies v work2 ≠ [] := by
        intro hd
        exact hvl (by simpa using inv.zero v hvk hd)
      have hentry : ∃ p ∈ work2, v ∈ p.2 := by
        by_contra hno
        push_neg at hno
        exact hdne (dependencies_eq_nil_iff.mpr hno)
      obtain ⟨p, hp, hvp⟩ := hentry
      have hkwnd : (keys work2).Nodup := by
        rw [hkeq]
        exact hwf.1
      have hmem : (p.1, p.2) ∈ work2 := hp
      have hsw : succs work2 p.1 = p.2 := succs_eq_of_mem_nodup hkwnd hmem
      have hvw : v ∈ succs work2 p.1 := by
        rw [hsw]
        exact hvp
      have hedge : Edge g p.1 v := (shape_succs inv.shape p.1).subset hvw
      have hp1l : p.1 ∉ l2 := by
        intro hin
        rw [inv.done p.1 hin] at hvw
        cases hvw
      have hp1k : p.1 ∈ keys g := by
        rw [← hkeq]
        exact List.mem_map_of_mem Prod.fst hp
      refine ⟨p.1, ?_, hedge⟩
      simp only [Finset.mem_filter, List.mem_toFinset]
      exact ⟨hp1k, by simpa using hp1l⟩
    exact hac (hasCycle_of_closed_preds hne hclosed)
  have hperm : l2.Perm (keys g) :=
    (List.perm_ext_iff_of_nodup hnd hwf.1).mpr
      (fun a => ⟨fun h => hsub a h, fun h => hcov a h⟩)
  have hlen2 : l2.length = (keys work2).length := by
    rw [hkeq]
    exact hperm.length_eq
  refine ⟨l2, ?_, hperm, ?_⟩
  · rw [sort_eq heq, if_neg (fun hcc => hcc hlen2)]
  · intro u v he
    have hvl : v ∈ l2 := hcov v (edge_target_mem_keys hwf he)
    exact (inv.order v hvl u he).2

theorem sort_error_of_hasCycle {g : Graph} (hwf : WF g) (hc : HasCycle g) :
    topological_sort g = .error (.valueError "graph is not acyclic") := by
  rcases hok : topological_sort g with e | l
  · obtain ⟨l2, work2, heq, inv⟩ := kahnLoop_spec hwf
    have hts := sort_eq heq
    rw [hok] at hts
    by_cases hlen : l2.length ≠ (keys work2).length
    · rw [if_pos hlen] at hts
      injection hts with he
      rw [he]
    · rw [if_neg hlen] at hts
      cases hts
  · exact absurd hc (not_hasCycle_of_sort_ok hwf hok)

/-! ### add_edge helpers -/

theorem keys_updateSucc (g : Graph) (u : Node) (f : List Node → List Node) :
    keys (updateSucc g u f) = keys g := by
  rw [updateSucc, keys, keys, List.map_map]
  refine List.map_congr_left (fun p _ => ?_)
  by_cases hp : p.1 = u
  · simp [Function.comp, hp]
  · simp [Function.comp, hp]

theorem setRemove_setAdd {l : List Node} {v : Node} (h : v ∉ l) :
    setRemove (setAdd l v) v = l := by
  rw [setAdd, if_neg h, setRemove, List.filter_append]
  rw [List.filter_eq_self.mpr
    (fun a ha => by
      simp only [ne_eq, decide_eq_true_eq]
      exact fun he => h (he ▸ ha))]
  simp

theorem updateSucc_not_mem (f : List Node → List Node) :
    ∀ {g : Graph} {u : Node}, u ∉ keys g → updateSucc g u f = g := by
  intro g
  induction g with
  | nil =>
      intro u _
      rfl
  | cons p t ih =>
      intro u h
      simp only [keys, List.map_cons, List.mem_cons, not_or] at h
      simp only [updateSucc, List.map_cons]
      rw [if_neg (fun he => h.1 he.symm)]
      have ht := ih h.2
      simp only [updateSucc] at ht
      rw [ht]

theorem insert_then_remove :
    ∀ {g : Graph} {u v : Node}, (keys g).Nodup → v ∉ succs g u →
      updateSucc (updateSucc g u (fun l => setAdd l v)) u (fun l => setRemove l v) = g := by
  intro g
  induction g with
  | nil =>
      intro u v _ _
      rfl
  | cons p t ih =>
      intro u v hk hv
      simp only [keys, List.map_cons, List.nodup_cons] at hk
      by_cases hp : p.1 = u
      · have hvp : v ∉ p.2 := by
          rw [succs, lookup, if_pos hp] at hv
          simpa using hv
        simp only [updateSucc, List.map_cons, if_pos hp]
        rw [setRemove_setAdd hvp]
        have hut : u ∉ keys t := by
          rw [← hp]
          exact hk.1
        have h1 : updateSucc t u (fun l => setAdd l v) = t := updateSucc_not_mem _ hut
        simp only [updateSucc] at h1
        rw [h1]
        have h2 : updateSucc t u (fun l => setRemove l v) = t := updateSucc_not_mem _ hut
        simp only [updateSucc] at h2
        rw [h2]
      · have hvt : v ∉ succs t u := by
          rw [succs, lookup, if_neg hp] at hv
          exact hv
        simp only [updateSucc, List.map_cons, if_neg hp]
        have := ih hk.2 hvt
        simp only [updateSucc] at this
        rw [this]

theorem wf_insert {g : Graph} {u v : Node} (hwf : WF g) (hv : v ∈ keys g) :
    WF (updateSucc g u (fun l => setAdd l v)) := by
  constructor
  · rw [keys_updateSucc]
    exact hwf.1
  · intro p hp
    rw [keys_updateSucc]
    obtain ⟨p0, hp0, hpe⟩ := List.mem_map.mp hp
    by_cases hpu : p0.1 = u
    · rw [if_pos hpu] at hpe
      subst hpe
      constructor
      · simp only [setAdd]
        by_cases hvm : v ∈ p0.2
        · rw [if_pos hvm]
          exact (hwf.2 p0 hp0).1
        · rw [if_neg hvm]
          refine List.Nodup.append (hwf.2 p0 hp0).1 (List.nodup_singleton v) ?_
          intro a ha hav
          rw [List.mem_singleton.mp hav] at ha
          exact hvm ha
      · intro c hc
        simp only [setAdd] at hc
        by_cases hvm : v ∈ p0.2
        · rw [if_pos hvm] at hc
          exact (hwf.2 p0 hp0).2 c hc
        · rw [if_neg hvm] at hc
          rcases List.mem_append.mp hc with h | h
          · exact (hwf.2 p0 hp0).2 c h
          · rw [List.mem_singleton.mp h]
            exact hv
    · rw [if_neg hpu] at hpe
      subst hpe
      exact hwf.2 p0 hp0

theorem validate_fst_false_of_hasCycle {g : Graph} (hwf : WF g) (hc : HasCycle g) :
    (validate g).1 = false := by
  rw [validate]
  by_cases hind : (ind_nodes g).length = 0
  · rw [if_pos hind]
  · rw [if_neg hind, sort_error_of_hasCycle hwf hc]

/-! ### build_levels helpers -/

theorem lookup_snoc {α : Type} (l : List (Node × α)) (n x : Node) (v : α) :
    lookup (l ++ [(n, v)]) x =
      match lookup l x with
      | some w => some w
      | none => if n = x then some v else none := by
  rw [lookup_append]
  rcases lookup l x with _ | w
  · simp only [lookup]
  · rfl

theorem lookup_snoc_self {α : Type} {l : List (Node × α)} {n : Node} (v : α)
    (h : lookup l n = none) : lookup (l ++ [(n, v)]) n = some v := by
  rw [lookup_snoc, h]
  simp

theorem lookup_snoc_none {α : Type} {l : List (Node × α)} {n x : Node} {v : α}
    (h : lookup (l ++ [(n, v)]) x = none) : lookup l x = none := by
  rcases hl : lookup l x with _ | w
  · rfl
  · rw [lookup_append_of_some [(n, v)] hl] at h
    cases h

theorem lookup_snoc_cases {α : Type} {l : List (Node × α)} {n x : Node} {v w : α}
    (h : lookup (l ++ [(n, v)]) x = some w) :
    lookup l x = some w ∨ (lookup l x = none ∧ n = x ∧ w = v) := by
  rw [lookup_snoc] at h
  rcases hl : lookup l x with _ | w2
  · rw [hl] at h
    by_cases hn : n = x
    · rw [if_pos hn] at h
      right
      exact ⟨rfl, hn, by injection h with hh; exact hh.symm⟩
    · rw [if_neg hn] at h
      cases h
  · rw [hl] at h
    left
    rw [← h]

theorem keys_append {α : Type} (l1 l2 : List (Node × α)) :
    keys (l1 ++ l2) = keys l1 ++ keys l2 := List.map_append _ _ _

theorem mem_setAdd {l : List Node} {x y : Node} :
    x ∈ setAdd l y ↔ x ∈ l ∨ x = y := by
  rw [setAdd]
  by_cases hy : y ∈ l
  · rw [if_pos hy]
    constructor
    · exact Or.inl
    · rintro (h | rfl)
      · exact h
      · exact hy
  · rw [if_neg hy]
    simp

/-- Membership in the `next_batch` accumulated by one assignment pass. -/
theorem mem_nextFold {levels2 : List (Node × Nat)} :
    ∀ (children nb : List Node) (x : Node),
      (x ∈ children.foldl
        (fun nb c => if (lookup levels2 c).isNone then setAdd nb c else nb) nb) ↔
      x ∈ nb ∨ (x ∈ children ∧ lookup levels2 x = none) := by
  intro children
  induction children with
  | nil =>
      intro nb x
      simp [List.foldl_nil]
  | cons c cs ih =>
      intro nb x
      rw [List.foldl_cons, ih]
      by_cases hc : (lookup levels2 c).isNone
      · rw [if_pos hc]
        rw [mem_setAdd]
        constructor
        · rintro ((h | rfl) | ⟨h1, h2⟩)
          · exact Or.inl h
          · exact Or.inr ⟨List.mem_cons_self _ _, Option.isNone_iff_eq_none.mp hc⟩
          · exact Or.inr ⟨List.mem_cons_of_mem _ h1, h2⟩
        · rintro (h | ⟨h1, h2⟩)
          · exact Or.inl (Or.inl h)
          · rcases List.mem_cons.mp h1 with rfl | h3
            · exact Or.inl (Or.inr rfl)
            · exact Or.inr ⟨h3, h2⟩
      · rw [if_neg hc]
        constructor
        · rintro (h | ⟨h1, h2⟩)
          · exact Or.inl h
          · exact Or.inr ⟨List.mem_cons_of_mem _ h1, h2⟩
        · rintro (h | ⟨h1, h2⟩)
          · exact Or.inl h
          · rcases List.mem_cons.mp h1 with rfl | h3
            · exfalso
              rw [h2] at hc
              exact hc rfl
            · exact Or.inr ⟨h3, h2⟩

theorem length_nextFold {levels2 : List (Node × Nat)} :
    ∀ (children nb : List Node),
      (children.foldl
        (fun nb c => if (lookup levels2 c).isNone then setAdd nb c else nb) nb).length ≤
      nb.length + children.length := by
  intro children
  induction children with
  | nil =>
      intro nb
      simp
  | cons c cs ih =>
      intro nb
      rw [List.foldl_cons]
      by_cases hc : (lookup levels2 c).isNone
      · rw [if_pos hc]
        have h1 := ih (setAdd nb c)
        have h2 : (setAdd nb c).length ≤ nb.length + 1 := by
          rw [setAdd]
          by_cases hm : c ∈ nb
          · rw [if_pos hm]
            omega
          · rw [if_neg hm]
            simp
        simp only [List.length_cons]
        omega
      · rw [if_neg hc]
        have h1 := ih nb
        simp only [List.length_cons]
        omega

theorem sum_map_filter_mono {L : List Node} {f : Node → Nat} {p1 p2 : Node → Bool}
    (h : ∀ x, p2 x = true → p1 x = true) :
    ((L.filter p2).map f).sum ≤ ((L.filter p1).map f).sum := by
  induction L with
  | nil => simp
  | cons a t ih =>
      rw [List.filter_cons, List.filter_cons]
      by_cases h2 : p2 a = true
      · rw [if_pos h2, if_pos (h a h2)]
        simp only [List.map_cons, List.sum_cons]
        omega
      · rw [if_neg h2]
        by_cases h1 : p1 a = true
        · rw [if_pos h1]
          simp only [List.map_cons, List.sum_cons]
          omega
        · rw [if_neg h1]
          exact ih

theorem sum_map_filter_drop {L : List Node} {f : Node → Nat} {p1 p2 : Node → Bool}
    {node : Node} (h : ∀ x, p2 x = true → p1 x = true) (hn1 : p1 node = true)
    (hn2 : p2 node = false) (hmem : node ∈ L) :
    ((L.filter p2).map f).sum + f node ≤ ((L.filter p1).map f).sum := by
  induction L with
  | nil => cases hmem
  | cons a t ih =>
      rw [List.filter_cons, List.filter_cons]
      rcases List.mem_cons.mp hmem with rfl | hmt
      · rw [if_neg (by rw [hn2]; simp), if_pos hn1]
        simp only [List.map_cons, List.sum_cons]
        have := @sum_map_filter_mono t f _ _ h
        omega
      · by_cases h2 : p2 a = true
        · rw [if_pos h2, if_pos (h a h2)]
          simp only [List.map_cons, List.sum_cons]
          have := ih hmt
          omega
        · rw [if_neg h2]
          by_cases h1 : p1 a = true
          · rw [if_pos h1]
            simp only [List.map_cons, List.sum_cons]
            have := ih hmt
            omega
          · rw [if_neg h1]
            exact ih hmt

/-- Remaining work of the level builder: edges out of not-yet-leveled
keys. -/
def levelPot (g : Graph) (levels : List (Node × Nat)) : Nat :=
  (((keys g).filter (fun u => (lookup levels u).isNone)).map
    (fun u => (succs g u).length)).sum

theorem levelPot_mono (g : Graph) (levels : List (Node × Nat)) (n : Node) (v : Nat) :
    levelPot g (levels ++ [(n, v)]) ≤ levelPot g levels := by
  refine sum_map_filter_mono (fun x hx => ?_)
  simp only [Option.isNone_iff_eq_none, decide_eq_true_eq] at *
  exact lookup_snoc_none hx

theorem levelPot_drop {g : Graph} {levels : List (Node × Nat)} {n : Node} (v : Nat)
    (hk : n ∈ keys g) (hnone : lookup levels n = none) :
    levelPot g (levels ++ [(n, v)]) + (succs g n).length ≤ levelPot g levels := by
  refine sum_map_filter_drop (fun x hx => ?_) ?_ ?_ hk
  · simp only [Option.isNone_iff_eq_none, decide_eq_true_eq] at *
    exact lookup_snoc_none hx
  · simp [hnone]
  · simp [lookup_snoc_self v hnone]

/-! ### The level-builder loop invariant -/

/-- Invariant of the BFS leveling loop: `batch` is the current wave,
`nextB` the next one, `level` the current wave index, `levels` the
assignments made so far. -/
structure LInv (g : Graph) (batch nextB : List Node) (level : Nat)
    (levels : List (Node × Nat)) : Prop where
  lkeys : ∀ p ∈ levels, p.1 ∈ keys g
  lnodup : (keys levels).Nodup
  lmax : ∀ p ∈ levels, p.2 ≤ level
  batchK : ∀ x ∈ batch, x ∈ keys g
  nextK : ∀ x ∈ nextB, x ∈ keys g
  batchSrc : ∀ x ∈ batch, lookup levels x = none →
    (level = 0 ∧ x ∈ ind_nodes g) ∨
    (1 ≤ level ∧ ∃ u, Edge g u x ∧ lookup levels u = some (level - 1))
  nextSrc : ∀ x ∈ nextB, ∃ u, Edge g u x ∧ lookup levels u = some level
  ind0 : ∀ x ∈ ind_nodes g, lookup levels x = some 0 ∨ (level = 0 ∧ x ∈ batch)
  zeroInd : ∀ x, lookup levels x = some 0 → x ∈ ind_nodes g
  k2 : ∀ u a, lookup levels u = some a → ∀ c, Edge g u c →
    (∃ b, b ≤ a + 1 ∧ lookup levels c = some b) ∨
    (a + 1 = level ∧ c ∈ batch) ∨ (a = level ∧ c ∈ nextB)
  succ1 : ∀ v k, lookup levels v = some (k + 1) →
    ∃ u, Edge g u v ∧ lookup levels u = some k

theorem linv_init {g : Graph} : LInv g (ind_nodes g) [] 0 [] := by
  refine ⟨?_, ?_, ?_, ?_, ?_, ?_, ?_, ?_, ?_, ?_, ?_⟩
  · intro p hp
    cases hp
  · exact List.nodup_nil
  · intro p hp
    cases hp
  · exact ind_nodes_sub_keys g
  · intro x hx
    cases hx
  · intro x hx _
    exact Or.inl ⟨rfl, hx⟩
  · intro x hx
    cases hx
  · intro x hx
    exact Or.inr ⟨rfl, hx⟩
  · intro x hx
    cases hx
  · intro u a hu
    cases hu
  · intro v k hv
    cases hv

theorem linv_shift {g : Graph} {nextB : List Node} {level : Nat}
    {levels : List (Node × Nat)} (inv : LInv g [] nextB level levels) :
    LInv g nextB [] (level + 1) levels := by
  refine ⟨inv.lkeys, inv.lnodup, ?_, inv.nextK, ?_, ?_, ?_, ?_, inv.zeroInd, ?_, inv.succ1⟩
  · intro p hp
    exact le_trans (inv.lmax p hp) (by omega)
  · intro x hx
    cases hx
  · intro x hx _
    obtain ⟨u, hu1, hu2⟩ := inv.nextSrc x hx
    refine Or.inr ⟨by omega, u, hu1, ?_⟩
    simpa using hu2
  · intro x hx
    cases hx
  · intro x hx
    rcases inv.ind0 x hx with h | ⟨_, h⟩
    · exact Or.inl h
    · cases h
  · intro u a hu c hc
    rcases inv.k2 u a hu c hc with h | ⟨h1, h2⟩ | ⟨h1, h2⟩
    · exact Or.inl h
    · cases h2
    · exact Or.inr (Or.inl ⟨by omega, h2⟩)

theorem linv_pop_skip {g : Graph} {node : Node} {rest nextB : List Node} {level b : Nat}
    {levels : List (Node × Nat)} (hlk : lookup levels node = some b)
    (inv : LInv g (node :: rest) nextB level levels) :
    LInv g rest nextB level levels := by
  have hble : b ≤ level := inv.lmax _ (lookup_mem hlk)
  refine ⟨inv.lkeys, inv.lnodup, inv.lmax, ?_, inv.nextK, ?_, inv.nextSrc, ?_,
    inv.zeroInd, ?_, inv.succ1⟩
  · intro x hx
    exact inv.batchK x (List.mem_cons_of_mem _ hx)
  · intro x hx hnone
    exact inv.batchSrc x (List.mem_cons_of_mem _ hx) hnone
  · intro x hx
    rcases inv.ind0 x hx with h | ⟨h0, hmem⟩
    · exact Or.inl h
    · rcases List.mem_cons.mp hmem with rfl | hr
      · refine Or.inl ?_
        have : b = 0 := by omega
        rw [← this]
        exact hlk
      · exact Or.inr ⟨h0, hr⟩
  · intro u a hu c hc
    rcases inv.k2 u a hu c hc with h | ⟨h1, h2⟩ | ⟨h1, h2⟩
    · exact Or.inl h
    · rcases List.mem_cons.mp h2 with rfl | hr
      · exact Or.inl ⟨b, by omega, hlk⟩
      · exact Or.inr (Or.inl ⟨h1, hr⟩)
    · exact Or.inr (Or.inr ⟨h1, h2⟩)

theorem linv_pop_assign {g : Graph} (hwf : WF g) {node : Node}
    {rest nextB : List Node} {level : Nat} {levels : List (Node × Nat)}
    {children : List Node} (hlk : lookup levels node = none)
    (hchild : lookup g node = some children)
    (inv : LInv g (node :: rest) nextB level levels) :
    LInv g rest
      (children.foldl
        (fun nb c => if (lookup (levels ++ [(node, level)]) c).isNone then setAdd nb c else nb)
        nextB)
      level (levels ++ [(node, level)]) := by
  have hnodeK : node ∈ keys g := inv.batchK node (List.mem_cons_self _ _)
  have hsucc : succs g node = children := by
    rw [succs, hchild]
    rfl
  have hchildK : ∀ c ∈ children, c ∈ keys g := by
    rw [← hsucc]
    exact wf_succs_sub_keys hwf node
  have hEdge : ∀ c, Edge g node c ↔ c ∈ children := by
    intro c
    rw [Edge, hsucc]
  have hself : lookup (levels ++ [(node, level)]) node = some level :=
    lookup_snoc_self level hlk
  have hlift : ∀ {x : Node} {w : Nat}, lookup levels x = some w →
      lookup (levels ++ [(node, level)]) x = some w :=
    fun h => lookup_append_of_some _ h
  have hmemfold := @mem_nextFold (levels ++ [(node, level)]) children nextB
  refine ⟨?_, ?_, ?_, ?_, ?_, ?_, ?_, ?_, ?_, ?_, ?_⟩
  · -- lkeys
    intro p hp
    rcases List.mem_append.mp hp with h | h
    · exact inv.lkeys p h
    · rw [List.mem_singleton.mp h]
      exact hnodeK
  · -- lnodup
    rw [keys_append]
    refine List.Nodup.append inv.lnodup (List.nodup_singleton _) ?_
    intro a ha hav
    have : a = node := List.mem_singleton.mp hav
    subst this
    exact (lookup_eq_none_iff.mp hlk) ha
  · -- lmax
    intro p hp
    rcases List.mem_append.mp hp with h | h
    · exact inv.lmax p h
    · rw [List.mem_singleton.mp h]
  · -- batchK
    intro x hx
    exact inv.batchK x (List.mem_cons_of_mem _ hx)
  · -- nextK
    intro x hx
    rcases (hmemfold x).mp hx with h | ⟨h1, _⟩
    · exact inv.nextK x h
    · exact hchildK x h1
  · -- batchSrc
    intro x hx hnone
    have hnone0 : lookup levels x = none := lookup_snoc_none hnone
    rcases inv.batchSrc x (List.mem_cons_of_mem _ hx) hnone0 with ⟨h0, hind⟩ | ⟨h1, u, hu1, hu2⟩
    · exact Or.inl ⟨h0, hind⟩
    · exact Or.inr ⟨h1, u, hu1, hlift hu2⟩
  · -- nextSrc
    intro x hx
    rcases (hmemfold x).mp hx with h | ⟨h1, _⟩
    · obtain ⟨u, hu1, hu2⟩ := inv.nextSrc x h
      exact ⟨u, hu1, hlift hu2⟩
    · exact ⟨node, (hEdge x).mpr h1, hself⟩
  · -- ind0
    intro x hx
    rcases inv.ind0 x hx with h | ⟨h0, hmem⟩
    · exact Or.inl (hlift h)
    · rcases List.mem_cons.mp hmem with rfl | hr
      · refine Or.inl ?_
        rw [h0] at hself
        rw [h0]
        exact hself
      · exact Or.inr ⟨h0, hr⟩
  · -- zeroInd
    intro x hx
    rcases lookup_snoc_cases hx with h | ⟨hn, heq, hv⟩
    · exact inv.zeroInd x h
    · have hxn : x = node := heq.symm
      subst hxn
      have h0 : level = 0 := hv.symm
      rcases inv.batchSrc x (List.mem_cons_self _ _) hn with ⟨_, hind⟩ | ⟨h1, _⟩
      · exact hind
      · omega
  · -- k2
    intro u a hu c hc
    rcases lookup_snoc_cases hu with hold | ⟨hnone2, heq, hv⟩
    · -- old entry
      rcases inv.k2 u a hold c hc with h | ⟨h1, h2⟩ | ⟨h1, h2⟩
      · obtain ⟨b, hb1, hb2⟩ := h
        exact Or.inl ⟨b, hb1, hlift hb2⟩
      · rcases List.mem_cons.mp h2 with rfl | hr
        · refine Or.inl ⟨level, by omega, hself⟩
        · exact Or.inr (Or.inl ⟨h1, hr⟩)
      · refine Or.inr (Or.inr ⟨h1, ?_⟩)
        refine (hmemfold c).mpr (Or.inl h2)
    · -- the new entry (node, level)
      have hun : u = node := heq.symm
      subst hun
      have hal : a = level := hv
      subst hal
      have hcch : c ∈ children := (hEdge c).mp hc
      rcases hlc : lookup (levels ++ [(u, a)]) c with _ | b
      · -- unleveled: went to nextB2
        refine Or.inr (Or.inr ⟨rfl, ?_⟩)
        exact (hmemfold c).mpr (Or.inr ⟨hcch, hlc⟩)
      · -- leveled already (or is node itself)
        refine Or.inl ⟨b, ?_, rfl⟩
        rcases lookup_snoc_cases hlc with h | ⟨_, _, hv2⟩
        · have := inv.lmax _ (lookup_mem h)
          omega
        · omega
  · -- succ1
    intro v k hv
    rcases lookup_snoc_cases hv with h | ⟨hn2, heq, hv2⟩
    · obtain ⟨u, hu1, hu2⟩ := inv.succ1 v k h
      exact ⟨u, hu1, hlift hu2⟩
    · have hvn : v = node := heq.symm
      subst hvn
      have hlev : level = k + 1 := hv2.symm
      rcases inv.batchSrc v (List.mem_cons_self _ _) hn2 with ⟨h0, _⟩ | ⟨h1, u, hu1, hu2⟩
      · omega
      · refine ⟨u, hu1, ?_⟩
        have : level - 1 = k := by omega
        rw [this] at hu2
        exact hlift hu2

theorem sum_succs_eq_totalEdges : ∀ {g : Graph}, (keys g).Nodup →
    ((keys g).map (fun u => (succs g u).length)).sum = totalEdges g := by
  intro g
  induction g with
  | nil =>
      intro _
      rfl
  | cons p t ih =>
      intro hk
      simp only [keys, List.map_cons, List.sum_cons] at *
      rw [List.nodup_cons] at hk
      have h1 : succs (p :: t) p.1 = p.2 := by
        rw [succs, lookup, if_pos rfl]
        rfl
      have h2 : List.map (fun u => (succs (p :: t) u).length) (List.map Prod.fst t) =
          List.map (fun u => (succs t u).length) (List.map Prod.fst t) := by
        refine List.map_congr_left (fun u hu => ?_)
        have hne : ¬ p.1 = u := fun he => hk.1 (he ▸ hu)
        rw [succs, lookup, if_neg hne]
        rfl
      rw [h1, h2, ih hk.2]
      simp [totalEdges]

theorem levelPot_nil {g : Graph} (hk : (keys g).Nodup) : levelPot g [] = totalEdges g := by
  rw [levelPot]
  have hfil : (keys g).filter (fun u => (lookup ([] : List (Node × Nat)) u).isNone) = keys g :=
    List.filter_eq_self.mpr (fun a _ => rfl)
  rw [hfil]
  exact sum_succs_eq_totalEdges hk

theorem buildLoopF_spec {g : Graph} (hwf : WF g) :
    ∀ (fuel : Nat) (batch nextB : List Node) (level : Nat) (levels : List (Node × Nat)),
      batch.length + nextB.length + levelPot g levels ≤ fuel →
      LInv g batch nextB level levels →
      (batch = [] → nextB = []) →
      ∃ levelsF levelF, buildLoopF g fuel batch nextB level levels = .ok levelsF ∧
        LInv g [] [] levelF levelsF := by
  intro fuel
  induction fuel with
  | zero =>
      intro batch nextB level levels hfuel inv hbn
      have hb : batch = [] := List.length_eq_zero.mp (by omega)
      have hn : nextB = [] := hbn hb
      subst hb
      subst hn
      exact ⟨levels, level, rfl, inv⟩
  | succ fuel ih =>
      intro batch nextB level levels hfuel inv hbn
      rcases batch with _ | ⟨node, rest⟩
      · have hn : nextB = [] := hbn rfl
        subst hn
        exact ⟨levels, level, rfl, inv⟩
      · simp only [List.length_cons] at hfuel
        rcases hlk : lookup levels node with _ | b
        · rcases hchild : lookup g node with _ | children
          · exfalso
            have hk := inv.batchK node (List.mem_cons_self _ _)
            exact (lookup_eq_none_iff.mp hchild) hk
          · have hinv2 := linv_pop_assign hwf hlk hchild inv
            have hpot := levelPot_drop level (inv.batchK node (List.mem_cons_self _ _)) hlk
            have hlen := @length_nextFold (levels ++ [(node, level)]) children nextB
            have hclen : (succs g node).length = children.length := by
              rw [succs, hchild]
              rfl
            have hpot2 : levelPot g (levels ++ [(node, level)]) + children.length ≤
                levelPot g levels := by
              rw [← hclen]
              exact hpot
            rcases rest with _ | ⟨r, rs⟩
            · have hshift := linv_shift hinv2
              obtain ⟨lf, vf, heq, hfin⟩ := ih
                (children.foldl
                  (fun nb c => if (lookup (levels ++ [(node, level)]) c).isNone
                    then setAdd nb c else nb) nextB)
                [] (level + 1) (levels ++ [(node, level)])
                (by simp only [List.length_nil, List.length_cons] at *; omega)
                hshift (fun _ => rfl)
              refine ⟨lf, vf, ?_, hfin⟩
              simp only [buildLoopF]
              rw [hlk, hchild]
              exact heq
            · obtain ⟨lf, vf, heq, hfin⟩ := ih (r :: rs)
                (children.foldl
                  (fun nb c => if (lookup (levels ++ [(node, level)]) c).isNone
                    then setAdd nb c else nb) nextB)
                level (levels ++ [(node, level)])
                (by simp only [List.length_cons] at *; omega)
                hinv2 (fun h => absurd h (by simp))
              refine ⟨lf, vf, ?_, hfin⟩
              simp only [buildLoopF]
              rw [hlk, hchild]
              exact heq
        · have hinv2 := linv_pop_skip hlk inv
          rcases rest with _ | ⟨r, rs⟩
          · have hshift := linv_shift hinv2
            obtain ⟨lf, vf, heq, hfin⟩ := ih nextB [] (level + 1) levels
              (by simp only [List.length_nil, List.length_cons] at *; omega)
              hshift (fun _ => rfl)
            refine ⟨lf, vf, ?_, hfin⟩
            simp only [buildLoopF]
            rw [hlk]
            exact heq
          · obtain ⟨lf, vf, heq, hfin⟩ := ih (r :: rs) nextB level levels
              (by simp only [List.length_cons] at *; omega)
              hinv2 (fun h => absurd h (by simp))
            refine ⟨lf, vf, ?_, hfin⟩
            simp only [buildLoopF]
            rw [hlk]
            exact heq

/-! ### Claim theorems -/

/-- C4 (code_bug evidence): on the graph `{"a": set()}` the call
`delete_node("a")` should remove the node, but the source raises
`NameError` (line 34 tests membership in the unbound name `graph` instead
of `self.graph`); `delete_node_if_exists` only swallows `KeyError`, so it
propagates the same `NameError`. -/
theorem c4_delete_node_nameError :
    delete_node "a" ⟨[("a", [])], [], -1⟩ = .error (.nameError "name graph is not defined") ∧
    delete_node_if_exists "a" ⟨[("a", [])], [], -1⟩ =
      .error (.nameError "name graph is not defined") :=
  ⟨rfl, rfl⟩

/-- C5 counterexample: build the reachable state with one node `"a"` and
levels built (`levels = {"a": 0}`, `max_level = 0`); after `reset_graph`
the levels mapping still holds the old assignment, contradicting the claim
that reset leaves no derived level data. -/
theorem c5_counterexample :
    ((add_node "a" init).bind build_levels).map reset_graph =
      .ok ⟨[], [("a", 0)], 0⟩ ∧ ([("a", 0)] : List (Node × Nat)) ≠ [] := by
  constructor
  · decide
  · decide

/-- C5 (amended): `reset_graph` empties the adjacency mapping but leaves
`self.levels` and `self.max_level` exactly as they were (the source only
reassigns `self.graph`). -/
theorem c5_reset_graph_frame :
    ∀ s : DAG, (reset_graph s).graph = [] ∧ (reset_graph s).levels = s.levels ∧
      (reset_graph s).max_level = s.max_level :=
  fun _ => ⟨rfl, rfl, rfl⟩

/-- C8: `root()` and `all_leaves()` return the same list, namely exactly
the keys whose successor set is empty (zero out-degree). -/
theorem c8_root_eq_leaves :
    ∀ g : Graph, root g = all_leaves g ∧
      ∀ n, (n ∈ root g ↔ n ∈ keys g ∧ succs g n = []) := by
  intro g
  refine ⟨rfl, fun n => ?_⟩
  rw [root, List.mem_filter, List.isEmpty_iff]

/-- C10: `topological_sort` and `validate`, viewed as method calls, return
the object state unchanged on every input (they only read `self.graph`,
working on deep copies), even though the sorter genuinely drains the
edges of its working copy (second conjunct: the final working graph of
the loop differs from the input graph). -/
theorem c10_sort_validate_pure :
    (∀ s : DAG, (topological_sortM s).2 = s ∧ (validateM s).2 = s ∧
      (topological_sortM s).1 = topological_sort s.graph ∧
      (validateM s).1 = validate s.graph) ∧
    (kahnLoop [("a", ["b"]), ("b", [])] (ind_nodes [("a", ["b"]), ("b", [])]) []).2 ≠
      [("a", ["b"]), ("b", [])] :=
  ⟨fun _ => ⟨rfl, rfl, rfl, rfl⟩, by decide⟩

/-- C1 counterexample: on the graph a→b, the call `add_edge("b","a")`
would close a cycle, yet it does not raise anything: it returns normally
(`isOk`) with the graph rolled back to exactly its prior state, refuting
the claim that the call fails by raising `DAGValidationError` (the source
prints the diagnostic and falls through; its `except DAGValidationError`
clause is dead because `validate` returns a pair instead of raising). -/
theorem c1_counterexample :
    add_edge "b" "a" ⟨[("a", ["b"]), ("b", [])], [], -1⟩ =
      .ok ⟨[("a", ["b"]), ("b", [])], [], -1⟩ ∧
    (add_edge "b" "a" ⟨[("a", ["b"]), ("b", [])], [], -1⟩).isOk = true :=
  ⟨by decide, by decide⟩

/-- C1 (amended): for every well-formed state and `add_edge(u, v)` call
between existing nodes whose insertion would create a cycle, the call
returns normally — no exception is raised, the validator diagnostic is
only printed — and the object state after the call is exactly equal to
its state before (the speculatively inserted edge is removed again). -/
theorem c1_add_edge_cycle (s : DAG) (u v : Node) (hwf : WF s.graph)
    (hu : u ∈ keys s.graph) (hv : v ∈ keys s.graph)
    (hcyc : HasCycle (updateSucc s.graph u (fun l => setAdd l v))) :
    add_edge u v s = .ok s := by
  simp only [add_edge]
  rw [if_pos ⟨hu, hv⟩]
  by_cases hmem : v ∈ succs s.graph u
  · rw [if_pos hmem]
  · rw [if_neg hmem]
    have hwf1 : WF (updateSucc s.graph u (fun l => setAdd l v)) := wf_insert hwf hv
    rw [if_neg (by rw [validate_fst_false_of_hasCycle hwf1 hcyc]; simp)]
    rw [insert_then_remove hwf.1 hmem]

/-- C1 witness: the amended statement applied to the graph a→b with the
cycle-closing call `add_edge("b","a")`. -/
theorem c1_witness :
    WF ([("a", ["b"]), ("b", [])] : Graph) ∧
    "b" ∈ keys ([("a", ["b"]), ("b", [])] : Graph) ∧
    "a" ∈ keys ([("a", ["b"]), ("b", [])] : Graph) ∧
    HasCycle (updateSucc [("a", ["b"]), ("b", [])] "b" (fun l => setAdd l "a")) ∧
    add_edge "b" "a" ⟨[("a", ["b"]), ("b", [])], [], -1⟩ =
      .ok ⟨[("a", ["b"]), ("b", [])], [], -1⟩ := by
  have hab : Edge (updateSucc [("a", ["b"]), ("b", [])] "b" (fun l => setAdd l "a"))
      "a" "b" := by decide
  have hba : Edge (updateSucc [("a", ["b"]), ("b", [])] "b" (fun l => setAdd l "a"))
      "b" "a" := by decide
  have hcyc : HasCycle (updateSucc [("a", ["b"]), ("b", [])] "b" (fun l => setAdd l "a")) :=
    ⟨"a", Relation.TransGen.head hab (Relation.TransGen.single hba)⟩
  exact ⟨by decide, by decide, by decide, hcyc,
    c1_add_edge_cycle ⟨[("a", ["b"]), ("b", [])], [], -1⟩ "b" "a" (by decide) (by decide)
      (by decide) hcyc⟩

/-- C2: on every well-formed acyclic graph, `topological_sort` returns a
permutation of all nodes in which every edge points forward; on every
graph with a directed cycle it raises `ValueError` instead of
returning. -/
theorem c2_topological_sort_spec (g : Graph) (hwf : WF g) :
    (¬ HasCycle g → ∃ l, topological_sort g = .ok l ∧ l.Perm (keys g) ∧
      ∀ u v, Edge g u v → Before l u v) ∧
    (HasCycle g → topological_sort g = .error (.valueError "graph is not acyclic")) :=
  ⟨fun hac => sort_ok_of_not_hasCycle hwf hac, fun hc => sort_error_of_hasCycle hwf hc⟩

/-- C2 witness: the diamond graph a→{b,c}→d is sorted into a permutation
with all edges forward, and the two-node cycle a⇄b raises. -/
theorem c2_witness :
    WF [("a", ["b", "c"]), ("b", ["d"]), ("c", ["d"]), ("d", [])] ∧
    (∃ l, topological_sort [("a", ["b", "c"]), ("b", ["d"]), ("c", ["d"]), ("d", [])] =
        .ok l ∧
      l.Perm (keys [("a", ["b", "c"]), ("b", ["d"]), ("c", ["d"]), ("d", [])]) ∧
      ∀ u v, Edge [("a", ["b", "c"]), ("b", ["d"]), ("c", ["d"]), ("d", [])] u v →
        Before l u v) ∧
    topological_sort [("a", ["b"]), ("b", ["a"])] =
      .error (.valueError "graph is not acyclic") := by
  refine ⟨by decide, ?_, ?_⟩
  · exact (c2_topological_sort_spec _ (by decide)).1
      (not_hasCycle_of_sort_ok (by decide)
        (show topological_sort [("a", ["b", "c"]), ("b", ["d"]), ("c", ["d"]), ("d", [])] =
          .ok ["a", "b", "c", "d"] by decide))
  · have hab : Edge [("a", ["b"]), ("b", ["a"])] "a" "b" := by decide
    have hba : Edge [("a", ["b"]), ("b", ["a"])] "b" "a" := by decide
    exact (c2_topological_sort_spec _ (by decide)).2
      ⟨"a", Relation.TransGen.head hab (Relation.TransGen.single hba)⟩

/-- C3 counterexample: on the acyclic graph r→{v,x}, x→u, u→v (one
independent node r), `build_levels` assigns level(u) = 2 and level(v) = 1,
yet u→v is an edge — so the claimed `level(v) ≥ level(u)` fails (BFS
level is shortest-hop distance, which an edge can jump backwards). -/
theorem c3_counterexample :
    (build_levels ⟨[("r", ["v", "x"]), ("x", ["u"]), ("u", ["v"]), ("v", [])], [], -1⟩).map
        (fun t => (lookup t.levels "u", lookup t.levels "v")) = .ok (some 2, some 1) ∧
    Edge [("r", ["v", "x"]), ("x", ["u"]), ("u", ["v"]), ("v", [])] "u" "v" ∧
    ¬ ((1 : Nat) ≥ 2) :=
  ⟨by decide, by decide, by decide⟩

/-- C3 (amended): for every well-formed acyclic graph with at least one
independent node, `build_levels` succeeds without touching the adjacency
structure, and afterwards: level 0 is assigned to exactly the independent
nodes; for every edge (u→v) with both endpoints leveled,
`level(v) ≤ level(u) + 1` (not `level(v) ≥ level(u)`, which the
counterexample refutes); and every node of level k+1 has at least one
predecessor of level k. -/
theorem c3_build_levels_spec (s : DAG) (hwf : WF s.graph)
    (hne : ind_nodes s.graph ≠ []) (_hac : ¬ HasCycle s.graph) :
    ∃ s2, build_levels s = .ok s2 ∧ s2.graph = s.graph ∧
      (∀ x, lookup s2.levels x = some 0 ↔ x ∈ ind_nodes s.graph) ∧
      (∀ u v a b, Edge s.graph u v → lookup s2.levels u = some a →
        lookup s2.levels v = some b → b ≤ a + 1) ∧
      (∀ v k, lookup s2.levels v = some (k + 1) →
        ∃ u, Edge s.graph u v ∧ lookup s2.levels u = some k) := by
  obtain ⟨lf, vf, heq, hfin⟩ := buildLoopF_spec hwf
    ((ind_nodes s.graph).length + totalEdges s.graph + 1)
    (ind_nodes s.graph) [] 0 []
    (by rw [levelPot_nil hwf.1]; simp)
    linv_init (fun h => rfl)
  refine ⟨⟨s.graph, lf, (lf.map (fun p => (p.2 : Int))).foldl max (-1)⟩, ?_, rfl, ?_, ?_, ?_⟩
  · rw [build_levels]
    rw [if_neg (fun h => hne (List.isEmpty_iff.mp h))]
    rw [heq]
  · intro x
    constructor
    · exact hfin.zeroInd x
    · intro hx
      rcases hfin.ind0 x hx with h | ⟨_, h⟩
      · exact h
      · cases h
  · intro u v a b hedge hu hv
    rcases hfin.k2 u a hu v hedge with ⟨b2, hb2, hlv⟩ | ⟨_, h⟩ | ⟨_, h⟩
    · rw [hv] at hlv
      injection hlv with hbb
      omega
    · cases h
    · cases h
  · exact hfin.succ1

/-- C3 witness: the amended statement applied to the diamond graph
a→{b,c}→d (acyclic, one independent node). -/
theorem c3_witness :
    WF ([("a", ["b", "c"]), ("b", ["d"]), ("c", ["d"]), ("d", [])] : Graph) ∧
    ind_nodes [("a", ["b", "c"]), ("b", ["d"]), ("c", ["d"]), ("d", [])] ≠ [] ∧
    ¬ HasCycle [("a", ["b", "c"]), ("b", ["d"]), ("c", ["d"]), ("d", [])] ∧
    (∃ s2, build_levels ⟨[("a", ["b", "c"]), ("b", ["d"]), ("c", ["d"]), ("d", [])], [], -1⟩ =
        .ok s2 ∧
      s2.graph = [("a", ["b", "c"]), ("b", ["d"]), ("c", ["d"]), ("d", [])] ∧
      (∀ x, lookup s2.levels x = some 0 ↔
        x ∈ ind_nodes [("a", ["b", "c"]), ("b", ["d"]), ("c", ["d"]), ("d", [])]) ∧
      (∀ u v a b, Edge [("a", ["b", "c"]), ("b", ["d"]), ("c", ["d"]), ("d", [])] u v →
        lookup s2.levels u = some a → lookup s2.levels v = some b → b ≤ a + 1) ∧
      (∀ v k, lookup s2.levels v = some (k + 1) →
        ∃ u, Edge [("a", ["b", "c"]), ("b", ["d"]), ("c", ["d"]), ("d", [])] u v ∧
          lookup s2.levels u = some k)) := by
  have hac : ¬ HasCycle [("a", ["b", "c"]), ("b", ["d"]), ("c", ["d"]), ("d", [])] :=
    not_hasCycle_of_sort_ok (by decide)
      (show topological_sort [("a", ["b", "c"]), ("b", ["d"]), ("c", ["d"]), ("d", [])] =
        .ok ["a", "b", "c", "d"] by decide)
  exact ⟨by decide, by decide, hac,
    c3_build_levels_spec ⟨[("a", ["b", "c"]), ("b", ["d"]), ("c", ["d"]), ("d", [])], [], -1⟩
      (by decide) (by decide) hac⟩

/-! ### end C3 -/

/-! ### all_downstreams: reachability walk -/

theorem bfsFold_spec : ∀ (ds q s : List Node),
    ∃ extra : List Node,
      bfsFold ds q s = (q ++ extra, s ++ extra) ∧
      (∀ x ∈ extra, x ∈ ds ∧ x ∉ s) ∧ (∀ x ∈ ds, x ∈ s ++ extra) ∧ extra.Nodup := by
  intro ds
  induction ds with
  | nil =>
      intro q s
      exact ⟨[], by simp [bfsFold], by simp, by simp, List.nodup_nil⟩
  | cons d ds ih =>
      intro q s
      by_cases hd : d ∈ s
      · have hstep : bfsFold (d :: ds) q s = bfsFold ds q s := by
          simp only [bfsFold, List.foldl_cons]
          rw [if_pos hd]
        rw [hstep]
        obtain ⟨extra, heq, hprop, hcov, hnd⟩ := ih q s
        refine ⟨extra, heq, ?_, ?_, hnd⟩
        · intro x hx
          exact ⟨List.mem_cons_of_mem _ (hprop x hx).1, (hprop x hx).2⟩
        · intro x hx
          rcases List.mem_cons.mp hx with rfl | hx2
          · exact List.mem_append_left _ hd
          · exact hcov x hx2
      · have hstep : bfsFold (d :: ds) q s = bfsFold ds (q ++ [d]) (s ++ [d]) := by
          simp only [bfsFold, List.foldl_cons]
          rw [if_neg hd]
        rw [hstep]
        obtain ⟨extra, heq, hprop, hcov, hnd⟩ := ih (q ++ [d]) (s ++ [d])
        refine ⟨d :: extra, ?_, ?_, ?_, ?_⟩
        · rw [heq, List.append_assoc, List.append_assoc]
          rfl
        · intro x hx
          rcases List.mem_cons.mp hx with rfl | hx2
          · exact ⟨List.mem_cons_self _ _, hd⟩
          · obtain ⟨h1, h2⟩ := hprop x hx2
            refine ⟨List.mem_cons_of_mem _ h1, fun hc => h2 (List.mem_append_left _ hc)⟩
        · intro x hx
          rcases List.mem_cons.mp hx with rfl | hx2
          · rw [List.append_cons]
            exact List.mem_append_left _ (List.mem_append_right _ (List.mem_singleton_self _))
          · have := hcov x hx2
            rw [List.append_assoc] at this
            exact this
        · rw [List.nodup_cons]
          refine ⟨fun hc => ?_, hnd⟩
          exact (hprop d hc).2 (List.mem_append_right _ (List.mem_singleton_self _))

theorem bfs_measure {g : Graph} {seen extra : List Node}
    (hsub : ∀ x ∈ extra, x ∈ allTargets g) (hnew : ∀ x ∈ extra, x ∉ seen)
    (hnd : extra.Nodup) :
    ((allTargets g).dedup.filter (fun x => decide (x ∉ seen ++ extra))).length +
      extra.length ≤
    ((allTargets g).dedup.filter (fun x => decide (x ∉ seen))).length := by
  have hLnd : (allTargets g).dedup.Nodup := List.nodup_dedup _
  have hsubL : ∀ x ∈ extra, x ∈ (allTargets g).dedup :=
    fun x hx => List.mem_dedup.mpr (hsub x hx)
  have hsplit : ((allTargets g).dedup.filter (fun x => decide (x ∉ seen ++ extra))) =
      ((allTargets g).dedup.filter (fun x => decide (x ∉ seen))).filter
        (fun x => decide (x ∉ extra)) := by
    rw [List.filter_filter]
    refine List.filter_congr (fun x _ => ?_)
    by_cases h1 : x ∈ seen <;> by_cases h2 : x ∈ extra <;> simp [h1, h2]
  have hMnd : (((allTargets g).dedup.filter (fun x => decide (x ∉ seen)))).Nodup :=
    List.Nodup.filter _ hLnd
  have hexM : ∀ x ∈ extra, x ∈ ((allTargets g).dedup.filter (fun x => decide (x ∉ seen))) :=
    fun x hx => List.mem_filter.mpr ⟨hsubL x hx, by simp [hnew x hx]⟩
  have hperm := List.filter_append_perm (fun x => decide (x ∉ extra))
    ((allTargets g).dedup.filter (fun x => decide (x ∉ seen)))
  have hlen := hperm.length_eq
  rw [List.length_append] at hlen
  have hsubper : extra.Subperm
      ((((allTargets g).dedup.filter (fun x => decide (x ∉ seen)))).filter
        (fun x => !(decide (x ∉ extra)))) := by
    refine List.Nodup.subperm hnd (fun x hx => ?_)
    exact List.mem_filter.mpr ⟨hexM x hx, by simp [hx]⟩
  have hle := List.Subperm.length_le hsubper
  rw [hsplit]
  omega

theorem succs_sub_allTargets {g : Graph} {x : Node} {ds : List Node}
    (h : lookup g x = some ds) : ∀ c ∈ ds, c ∈ allTargets g := by
  intro c hc
  rw [allTargets, List.mem_flatten]
  exact ⟨ds, List.mem_map_of_mem Prod.snd (lookup_mem h), hc⟩

theorem bfsLoopF_spec {g : Graph} (hwf : WF g) (n0 : Node) (hn0 : n0 ∈ keys g) :
    ∀ (fuel : Nat) (q seen : List Node),
      q.length + ((allTargets g).dedup.filter (fun x => decide (x ∉ seen))).length ≤ fuel →
      (∀ x ∈ q, x = n0 ∨ Relation.TransGen (Edge g) n0 x) →
      (∀ x ∈ seen, Relation.TransGen (Edge g) n0 x) →
      (∀ x, (x = n0 ∨ x ∈ seen) → x ∉ q → ∀ c, Edge g x c → c ∈ seen) →
      ∃ seenF, bfsLoopF g fuel q seen = .ok seenF ∧
        (∀ x ∈ seenF, Relation.TransGen (Edge g) n0 x) ∧
        (∀ x, (x = n0 ∨ x ∈ seenF) → ∀ c, Edge g x c → c ∈ seenF) := by
  intro fuel
  induction fuel with
  | zero =>
      intro q seen hfuel hq hseen hclosed
      have hqe : q = [] := List.length_eq_zero.mp (by omega)
      subst hqe
      exact ⟨seen, rfl, hseen, fun x hx c hc => hclosed x hx (by simp) c hc⟩
  | succ fuel ih =>
      intro q seen hfuel hq hseen hclosed
      rcases q with _ | ⟨x, rest⟩
      · exact ⟨seen, rfl, hseen, fun y hy c hc => hclosed y hy (by simp) c hc⟩
      · simp only [List.length_cons] at hfuel
        have hxk : x ∈ keys g := by
          rcases hq x (List.mem_cons_self _ _) with rfl | hr
          · exact hn0
          · cases hr with
            | single he2 => exact edge_target_mem_keys hwf he2
            | tail h1 he2 => exact edge_target_mem_keys hwf he2
        obtain ⟨ds, hds⟩ := lookup_isSome_of_mem_keys hxk
        have hsuccx : succs g x = ds := by
          rw [succs, hds]
          rfl
        obtain ⟨extra, heqf, hprop, hcov, hndx⟩ := bfsFold_spec ds rest seen
        have hreach : ∀ y ∈ extra, Relation.TransGen (Edge g) n0 y := by
          intro y hy
          have hyds : y ∈ ds := (hprop y hy).1
          have hedge : Edge g x y := by
            rw [Edge, hsuccx]
            exact hyds
          rcases hq x (List.mem_cons_self _ _) with rfl | hr
          · exact Relation.TransGen.single hedge
          · exact Relation.TransGen.tail hr hedge
        have hmeas := @bfs_measure g seen extra
          (fun y hy => succs_sub_allTargets hds y (hprop y hy).1)
          (fun y hy => (hprop y hy).2) hndx
        obtain ⟨seenF, heq2, hsound, hclosedF⟩ := ih (rest ++ extra) (seen ++ extra)
          (by
            rw [List.length_append]
            omega)
          (by
            intro y hy
            rcases List.mem_append.mp hy with h | h
            · exact hq y (List.mem_cons_of_mem _ h)
            · exact Or.inr (hreach y h))
          (by
            intro y hy
            rcases List.mem_append.mp hy with h | h
            · exact hseen y h
            · exact hreach y h)
          (by
            intro y hy hynq c hc
            rcases hy with rfl | hys
            · by_cases hyx : y = x
              · subst hyx
                refine hcov c ?_
                rw [← hsuccx]
                exact hc
              · have hnotin : y ∉ x :: rest := by
                  intro hin
                  rcases List.mem_cons.mp hin with h | h
                  · exact hyx h
                  · exact hynq (List.mem_append_left _ h)
                exact List.mem_append_left _ (hclosed y (Or.inl rfl) hnotin c hc)
            · rcases List.mem_append.mp hys with h | h
              · by_cases hyx : y = x
                · subst hyx
                  refine hcov c ?_
                  rw [← hsuccx]
                  exact hc
                · have hnotin : y ∉ x :: rest := by
                    intro hin
                    rcases List.mem_cons.mp hin with h2 | h2
                    · exact hyx h2
                    · exact hynq (List.mem_append_left _ h2)
                  exact List.mem_append_left _ (hclosed y (Or.inr h) hnotin c hc)
              · exact absurd (List.mem_append_right _ h) hynq)
        refine ⟨seenF, ?_, hsound, hclosedF⟩
        simp only [bfsLoopF]
        rw [hds]
        show bfsLoopF g fuel (bfsFold ds rest seen).1 (bfsFold ds rest seen).2 = .ok seenF
        rw [heqf]
        exact heq2

/-! ### end BFS -/

/-- C7: on a well-formed acyclic graph, `all_downstreams(node)` returns
exactly the nodes reachable from `node` through one or more successor
edges (never `node` itself), ordered as the subsequence of the full
`topological_sort` restricted to that closure (the source literally
filters the sort by the visited set of its reachability walk). -/
theorem c7_all_downstreams_spec (g : Graph) (node : Node) (hwf : WF g)
    (hnode : node ∈ keys g) (hac : ¬ HasCycle g) :
    ∃ (seen ts : List Node),
      all_downstreams g node = .ok (ts.filter (fun v => decide (v ∈ seen))) ∧
      topological_sort g = .ok ts ∧ ts.Perm (keys g) ∧
      (∀ v, v ∈ seen ↔ Relation.TransGen (Edge g) node v) ∧ node ∉ seen := by
  obtain ⟨seenF, hbfs, hsound, hclosed⟩ := bfsLoopF_spec hwf node hnode
    (1 + (allTargets g).dedup.length) [node] []
    (by
      simp only [List.length_cons, List.length_nil]
      have := List.length_filter_le (fun x => decide (x ∉ ([] : List Node)))
        (allTargets g).dedup
      omega)
    (by
      intro x hx
      rcases List.mem_cons.mp hx with rfl | h
      · exact Or.inl rfl
      · cases h)
    (by
      intro x hx
      cases hx)
    (by
      intro x hx hnq c hc
      rcases hx with rfl | h
      · exact absurd (List.mem_cons_self _ _) hnq
      · cases h)
  have hcomp : ∀ v, Relation.TransGen (Edge g) node v → v ∈ seenF := by
    intro v hv
    induction hv with
    | single he => exact hclosed node (Or.inl rfl) _ he
    | tail h1 he ih => exact hclosed _ (Or.inr ih) _ he
  obtain ⟨ts, hts, hperm, _⟩ := sort_ok_of_not_hasCycle hwf hac
  refine ⟨seenF, ts, ?_, hts, hperm, ?_, ?_⟩
  · simp only [all_downstreams]
    rw [hbfs, hts]
    rfl
  · intro v
    exact ⟨fun h => hsound v h, fun h => hcomp v h⟩
  · intro hmem
    exact hac ⟨node, hsound node hmem⟩

/-- C7 witness: the scenario from the specification,
`all_downstreams("a")` on the diamond a→{b,c}→d, which computes
`["b","c","d"]` — the topological order restricted to the closure. -/
theorem c7_witness :
    all_downstreams [("a", ["b", "c"]), ("b", ["d"]), ("c", ["d"]), ("d", [])] "a" =
      .ok ["b", "c", "d"] ∧
    WF ([("a", ["b", "c"]), ("b", ["d"]), ("c", ["d"]), ("d", [])] : Graph) ∧
    "a" ∈ keys ([("a", ["b", "c"]), ("b", ["d"]), ("c", ["d"]), ("d", [])] : Graph) ∧
    ¬ HasCycle [("a", ["b", "c"]), ("b", ["d"]), ("c", ["d"]), ("d", [])] ∧
    (∃ (seen ts : List Node),
      all_downstreams [("a", ["b", "c"]), ("b", ["d"]), ("c", ["d"]), ("d", [])] "a" =
        .ok (ts.filter (fun v => decide (v ∈ seen))) ∧
      topological_sort [("a", ["b", "c"]), ("b", ["d"]), ("c", ["d"]), ("d", [])] =
        .ok ts ∧
      ts.Perm (keys ([("a", ["b", "c"]), ("b", ["d"]), ("c", ["d"]), ("d", [])] : Graph)) ∧
      (∀ v, v ∈ seen ↔
        Relation.TransGen (Edge [("a", ["b", "c"]), ("b", ["d"]), ("c", ["d"]), ("d", [])])
          "a" v) ∧
      "a" ∉ seen) := by
  have hac : ¬ HasCycle [("a", ["b", "c"]), ("b", ["d"]), ("c", ["d"]), ("d", [])] :=
    not_hasCycle_of_sort_ok (by decide)
      (show topological_sort [("a", ["b", "c"]), ("b", ["d"]), ("c", ["d"]), ("d", [])] =
        .ok ["a", "b", "c", "d"] by decide)
  exact ⟨by decide, by decide, by decide, hac,
    c7_all_downstreams_spec [("a", ["b", "c"]), ("b", ["d"]), ("c", ["d"]), ("d", [])] "a"
      (by decide) (by decide) hac⟩

/-! ### upstream: path structure -/

theorem mem_get_nodes_at_depth {levels : List (Node × Nat)} (hln : (keys levels).Nodup)
    {p : Node} {lvl : Int} (h : p ∈ get_nodes_at_depth levels lvl) :
    ∃ k : Nat, lookup levels p = some k ∧ (k : Int) = lvl := by
  rw [get_nodes_at_depth] at h
  obtain ⟨pr, hpr, hfst⟩ := List.mem_map.mp h
  have hpr2 := List.mem_filter.mp hpr
  refine ⟨pr.2, ?_, by simpa using hpr2.2⟩
  have hmem : (p, pr.2) ∈ levels := by
    rw [← hfst]
    exact hpr2.1
  exact lookup_of_mem_nodup hln hmem

theorem scanLevel_spec (g : Graph) (Q : Node → Prop) :
    ∀ (pp : List Node), (∀ p ∈ pp, Q p) →
      ∀ rpath, rpath ≠ [] → List.Chain' (fun a b => Edge g a b) rpath →
        ∃ front, scanLevel g pp rpath = front ++ rpath ∧ (∀ p ∈ front, Q p) ∧
          List.Chain' (fun a b => Edge g a b) (front ++ rpath) := by
  intro pp
  induction pp with
  | nil =>
      intro _ rpath hne hch
      exact ⟨[], rfl, fun p hp => absurd hp (List.not_mem_nil p), by simpa using hch⟩
  | cons p pp ih =>
      intro hQ rpath hne hch
      rcases hrp : rpath with _ | ⟨h, t⟩
      · exact absurd hrp hne
      · subst hrp
        by_cases hmem : h ∈ succs g p
        · have hstep : scanLevel g (p :: pp) (h :: t) = scanLevel g pp (p :: h :: t) := by
            simp only [scanLevel, List.foldl_cons, List.head?_cons]
            rw [if_pos hmem]
          rw [hstep]
          have hch2 : List.Chain' (fun a b => Edge g a b) (p :: h :: t) := by
            rw [List.chain'_cons']
            refine ⟨fun y hy => ?_, hch⟩
            simp only [List.head?_cons, Option.mem_def] at hy
            injection hy with hy2
            rw [← hy2]
            exact hmem
          obtain ⟨front, heq, hQ2, hch3⟩ := ih (fun q hq => hQ q (List.mem_cons_of_mem _ hq))
            (p :: h :: t) (by simp) hch2
          refine ⟨front ++ [p], ?_, ?_, ?_⟩
          · rw [heq, List.append_assoc]
            rfl
          · intro q hq
            rcases List.mem_append.mp hq with hq2 | hq2
            · exact hQ2 q hq2
            · rw [List.mem_singleton.mp hq2]
              exact hQ p (List.mem_cons_self _ _)
          · rw [List.append_assoc]
            exact hch3
        · have hstep : scanLevel g (p :: pp) (h :: t) = scanLevel g pp (h :: t) := by
            simp only [scanLevel, List.foldl_cons, List.head?_cons]
            rw [if_neg hmem]
          rw [hstep]
          exact ih (fun q hq => hQ q (List.mem_cons_of_mem _ hq)) (h :: t) (by simp) hch

theorem upstreamLoopF_spec (s : DAG) (hln : (keys s.levels).Nodup) (d : Nat) :
    ∀ (k : Nat) (dep : Int), dep ≤ (d : Int) →
      ∀ rpath, rpath ≠ [] → List.Chain' (fun a b => Edge s.graph a b) rpath →
        ∃ front, upstreamLoopF s k dep rpath = front ++ rpath ∧
          List.Chain' (fun a b => Edge s.graph a b) (front ++ rpath) ∧
          ∀ p ∈ front, ∃ kk : Nat, lookup s.levels p = some kk ∧ (kk : Int) < (d : Int) := by
  intro k
  induction k with
  | zero =>
      intro dep _ rpath hne hch
      exact ⟨[], rfl, by simpa using hch, fun p hp => absurd hp (List.not_mem_nil p)⟩
  | succ k ih =>
      intro dep hdep rpath hne hch
      have hQ : ∀ p ∈ get_nodes_at_depth s.levels (dep - 1),
          ∃ kk : Nat, lookup s.levels p = some kk ∧ (kk : Int) < (d : Int) := by
        intro p hp
        obtain ⟨kk, h1, h2⟩ := mem_get_nodes_at_depth hln hp
        exact ⟨kk, h1, by omega⟩
      obtain ⟨front1, heq1, hQ1, hch1⟩ := scanLevel_spec s.graph
        (fun p => ∃ kk : Nat, lookup s.levels p = some kk ∧ (kk : Int) < (d : Int))
        (get_nodes_at_depth s.levels (dep - 1)) hQ rpath hne hch
      obtain ⟨front2, heq2, hch2, hQ2⟩ := ih (dep - 1) (by omega) (front1 ++ rpath)
        (by
          intro hcon
          rw [List.append_eq_nil] at hcon
          exact hne hcon.2)
        hch1
      refine ⟨front2 ++ front1, ?_, ?_, ?_⟩
      · simp only [upstreamLoopF]
        rw [heq1, heq2, List.append_assoc]
      · rw [List.append_assoc]
        exact hch2
      · intro p hp
        rcases List.mem_append.mp hp with h | h
        · exact hQ2 p h
        · exact hQ1 p h

/-- C9 counterexample: on the leveled graph r→{p1,p2}, p2→p1, p1→n
(levels: r=0, p1=1, p2=1, n=2), `upstream("n")` appends BOTH p1 and p2 —
two nodes of level 1 — because the `continue` on line 98 is the last
statement of the `for` body and never cuts the scan short; the path head
advances to p1 and p2 then also matches.  This refutes "at most one node
per level is added to the path". -/
theorem c9_counterexample :
    (build_levels ⟨[("r", ["p1", "p2"]), ("p2", ["p1"]), ("p1", ["n"]), ("n", [])],
        [], -1⟩).bind (fun s1 => upstream s1 "n") = .ok ["n", "p1", "p2", "r"] ∧
    (build_levels ⟨[("r", ["p1", "p2"]), ("p2", ["p1"]), ("p1", ["n"]), ("n", [])],
        [], -1⟩).map
      (fun s1 => (lookup s1.levels "p1", lookup s1.levels "p2", lookup s1.levels "n")) =
      .ok (some 1, some 1, some 2) :=
  ⟨by decide, by decide⟩

/-- C9 (amended): for every state whose levels mapping has unique keys
and every node `n` with an assigned level `d`, `upstream(n)` returns a
path headed by `n` built by scanning levels `d-1` down to `-1`, at each
level appending EVERY scanned node whose successor set contains the
current (just-advanced) path head — so possibly several nodes per level —
decrementing the level counter once per sweep whether or not a match was
found.  Consequently the result is a chain in which each appended node
has a direct edge to the node appended just before it, and every appended
node carries a level strictly below `d`. -/
theorem c9_upstream_spec (s : DAG) (node : Node) (hln : (keys s.levels).Nodup)
    (hnode : node ∈ keys s.graph) (d : Nat) (hd : lookup s.levels node = some d) :
    ∃ path, upstream s node = .ok path ∧ path.head? = some node ∧
      List.Chain' (fun a b => Edge s.graph b a) path ∧
      ∀ p ∈ path.tail, ∃ k : Nat, lookup s.levels p = some k ∧ k < d := by
  obtain ⟨front, heq, hch, hQ⟩ := upstreamLoopF_spec s hln d (d + 1) (d : Int)
    (le_refl _) [node] (by simp) (List.chain'_singleton node)
  refine ⟨(upstreamLoopF s (d + 1) (d : Int) [node]).reverse, ?_, ?_, ?_, ?_⟩
  · rw [upstream, if_pos hnode, hd]
  · rw [heq]
    simp
  · rw [heq, List.chain'_reverse]
    have : (fun a b => Edge s.graph b a) = flip (fun a b => Edge s.graph a b) := rfl
    rw [this]
    exact hch
  · intro p hp
    rw [heq] at hp
    have hp2 : p ∈ front := by
      have hrev : (front ++ [node]).reverse = node :: front.reverse := by
        simp
      rw [hrev] at hp
      simp only [List.tail_cons] at hp
      exact List.mem_reverse.mp hp
    obtain ⟨kk, h1, h2⟩ := hQ p hp2
    exact ⟨kk, h1, by omega⟩

/-- C9 witness: the amended statement applied to the leveled graph of the
counterexample, at node n with depth 2. -/
theorem c9_witness :
    (keys ([("r", 0), ("p1", 1), ("p2", 1), ("n", 2)] : List (Node × Nat))).Nodup ∧
    "n" ∈ keys ([("r", ["p1", "p2"]), ("p2", ["p1"]), ("p1", ["n"]), ("n", [])] : Graph) ∧
    lookup ([("r", 0), ("p1", 1), ("p2", 1), ("n", 2)] : List (Node × Nat)) "n" = some 2 ∧
    (∃ path, upstream ⟨[("r", ["p1", "p2"]), ("p2", ["p1"]), ("p1", ["n"]), ("n", [])],
        [("r", 0), ("p1", 1), ("p2", 1), ("n", 2)], 2⟩ "n" = .ok path ∧
      path.head? = some "n" ∧
      List.Chain' (fun a b =>
        Edge [("r", ["p1", "p2"]), ("p2", ["p1"]), ("p1", ["n"]), ("n", [])] b a) path ∧
      ∀ p ∈ path.tail, ∃ k : Nat,
        lookup ([("r", 0), ("p1", 1), ("p2", 1), ("n", 2)] : List (Node × Nat)) p = some k ∧
          k < 2) :=
  ⟨by decide, by decide, by decide,
    c9_upstream_spec ⟨[("r", ["p1", "p2"]), ("p2", ["p1"]), ("p1", ["n"]), ("n", [])],
      [("r", 0), ("p1", 1), ("p2", 1), ("n", 2)], 2⟩ "n" (by decide) (by decide) 2 (by decide)⟩

/-- C6 counterexample: on the empty graph, `validate` does fail with
"no independent nodes detected" (`ind_nodes` of the empty dict is empty
and the guard does not test non-emptiness of the graph), contradicting
the claim that the empty graph is not rejected with that message. -/
theorem c6_counterexample :
    validate ([] : Graph) = (false, "no independent nodes detected") := by
  decide

/-- C6 (amended): `validate` fails with message "no independent nodes
detected" exactly when no node of the graph has zero in-degree — a
condition that the empty graph satisfies vacuously, so the empty graph is
rejected with this message as well. -/
theorem c6_validate_no_independent (g : Graph) (hk : (keys g).Nodup) :
    validate g = (false, "no independent nodes detected") ↔
      ∀ n ∈ keys g, ∃ u, Edge g u n := by
  constructor
  · intro h n hn
    by_cases hind : (ind_nodes g).length = 0
    · have hnil : ind_nodes g = [] := List.length_eq_zero.mp hind
      obtain ⟨p, hp, hv⟩ := (ind_nodes_eq_nil_iff.mp hnil) n hn
      exact ⟨p.1, (edge_iff_entry hk p.1 n).mpr ⟨p, hp, rfl, hv⟩⟩
    · exfalso
      rw [validate, if_neg hind] at h
      rcases hts : topological_sort g with e | l <;> rw [hts] at h
      · have h2 : ((false : Bool), "failed topological sort") =
            ((false : Bool), "no independent nodes detected") := h
        exact absurd h2 (by decide)
      · have h2 : ((true : Bool), "valid") =
            ((false : Bool), "no independent nodes detected") := h
        exact absurd h2 (by decide)
  · intro h
    have hnil : ind_nodes g = [] := by
      rw [ind_nodes_eq_nil_iff]
      intro n hn
      obtain ⟨u, hu⟩ := h n hn
      rw [edge_iff_entry hk] at hu
      obtain ⟨p, hp, _, hv⟩ := hu
      exact ⟨p, hp, hv⟩
    rw [validate, if_pos (by rw [hnil]; rfl)]

/-- C6 witness: the amended equivalence applied to the empty graph. -/
theorem c6_witness :
    (keys ([] : Graph)).Nodup ∧
      (validate ([] : Graph) = (false, "no independent nodes detected") ↔
        ∀ n ∈ keys ([] : Graph), ∃ u, Edge ([] : Graph) u n) :=
  ⟨by decide, c6_validate_no_independent [] (by decide)⟩

end Dag
